import Mathlib

set_option linter.unusedVariables false

/-!
Shallow embedding of `src/migrate.py` (a SQL schema-migration tool) and proofs
about its dependency resolver, apply orchestrator, rollback orchestrator and
catalog construction.

Modelling conventions:
* Revision identifiers and file names are `String`s, as in the source.
* The durable ledger (Postgres tables `revision` and `dependent_revision`) is a
  pair of row lists; `INSERT` appends a row, `DELETE ... WHERE` filters rows.
  The schema's primary-key / foreign-key constraints are taken as hypotheses
  where a claim needs them, since the real store enforces them.
* Executing a migration script has no observable effect on the ledger tables
  themselves; runs are recorded as a trace of executed revision identifiers.
* A `with db_engine.begin()` block is one atomic transaction: it either applies
  all of its effects or none (Python exceptions roll it back), so a failing
  transaction leaves the state unchanged and aborts the remaining work.
* Python's unbounded recursion in `remove_migration` is modelled with an
  explicit fuel parameter bounding the recursion depth; a `none` result means
  the fuel was exhausted, which is how non-termination of the source recursion
  is expressed.
* Python string functions are re-implemented structurally so that the kernel
  can evaluate them: `pyReplace` models `str.replace` (all non-overlapping
  occurrences, left to right), `pyStrip` models `str.strip`.
-/

namespace Migrate

/-- Revision identifiers, as used throughout `migrate.py`. -/
abbrev Rev := String

/-- The marker that introduces a declared predecessor inside a forward script
(`PREDECESSOR_MARKER = '-- #'` in the source). -/
def PREDECESSOR_MARKER : String := "-- #"

/-- Fuel-indexed worker for `pyReplace`: scans the character list left to
right, replacing each non-overlapping occurrence of `pat`.  The fuel is the
length of the scanned list, so it never runs out. -/
def replaceAux (pat rep : List Char) : Nat → List Char → List Char
  | _, [] => []
  | 0, s => s
  | fuel+1, c :: rest =>
    if pat.isPrefixOf (c :: rest) && !pat.isEmpty then
      rep ++ replaceAux pat rep fuel ((c :: rest).drop pat.length)
    else
      c :: replaceAux pat rep fuel rest

/-- Model of Python's `str.replace`: replaces every non-overlapping occurrence
of `pat` in `s` by `rep`, scanning left to right. -/
def pyReplace (s pat rep : String) : String :=
  ⟨replaceAux pat.data rep.data s.data.length s.data⟩

/-- Model of Python's `str.strip`: removes leading and trailing whitespace. -/
def pyStrip (s : String) : String :=
  ⟨((s.data.dropWhile Char.isWhitespace).reverse.dropWhile Char.isWhitespace).reverse⟩

/-- Model of Python's `str.startswith`. -/
def pyStartsWith (s pre : String) : Bool :=
  pre.data.isPrefixOf s.data

/-- The ledger: the rows of the `revision` table (applied revisions) and of the
`dependent_revision` table (edges `(ParentRevision, DependentRevision)`). -/
structure Ledger where
  applied : List Rev
  edges : List (Rev × Rev)
deriving DecidableEq

/-- Predecessor extraction performed by `apply_migrations` (lines 159-165 of
`migrate.py`): every line of the forward script starting with the predecessor
marker contributes `line.replace(PREDECESSOR_MARKER, '').strip()`. -/
def extractPredecessors (lines : List String) : List Rev :=
  (lines.filter (fun l => pyStartsWith l PREDECESSOR_MARKER)).map
    (fun l => pyStrip (pyReplace l PREDECESSOR_MARKER ""))

/-- The value stored in `revision_to_predecessors`: the pair of the full
declared-predecessor list (index 0 in the Python tuple) and the outstanding
ones, i.e. those not yet applied (index 1). -/
structure PredInfo where
  allPreds : List Rev
  outstanding : List Rev
deriving DecidableEq

/-- Builds one `revision_to_predecessors` entry from the applied set and the
lines of the forward script, exactly as the single pass in lines 159-165 does:
every marker line is appended to the first list, and also to the second list
when the named predecessor is not among the applied migrations. -/
def mkPredInfo (applied : List Rev) (lines : List String) : PredInfo :=
  let ps := extractPredecessors lines
  ⟨ps, ps.filter (fun p => !(applied.contains p))⟩

/-- Python-dict insertion on an association list: a reassigned key keeps its
original position but takes the new value, a fresh key is appended. -/
def dictInsert (k : Rev) (v : String) : List (Rev × String) → List (Rev × String)
  | [] => [(k, v)]
  | (k', v') :: rest =>
    if k' == k then (k, v) :: rest else (k', v') :: dictInsert k v rest

/-- Identifier derivation in line 143 of `migrate.py`:
`filename.replace(migrations_directory, '').replace('.sql', '')`.  Note that
Python's `replace` removes every occurrence of `'.sql'`, not just a suffix. -/
def revisionOfFilename (dir fn : String) : String :=
  pyReplace (pyReplace fn dir "") ".sql" ""

/-- The dict comprehension of line 143 building `revision_to_file` from the
globbed file list: entries are inserted left to right, so two files mapping to
the same identifier leave only the later one's value in the dict. -/
def revision_to_file (dir : String) (files : List String) : List (Rev × String) :=
  files.foldl (fun d fn => dictInsert (revisionOfFilename dir fn) fn d) []

/-- The mutable state of `_apply_revisions_to_database`: the ledger, the
remaining `revision_to_predecessors` dict, and the trace of forward scripts
executed and committed so far (in execution order). -/
structure St where
  ledger : Ledger
  preds : List (Rev × PredInfo)
  executed : List Rev
deriving DecidableEq

/-- Dictionary lookup in `revision_to_predecessors` (defaulting to an empty
entry, which never happens on the paths the source exercises). -/
def lookupPreds (m : List (Rev × PredInfo)) (rev : Rev) : PredInfo :=
  ((m.find? (fun e => e.1 == rev)).map (·.2)).getD ⟨[], []⟩

/-- One iteration of the inner `for` loop of `_apply_revisions_to_database`
(lines 208-225), as one committed transaction: execute the forward script,
insert the `revision` row, insert one `dependent_revision` row per declared
predecessor; then delete the revision from the dict and remove one occurrence
of it from every remaining outstanding list (`list.remove` semantics). -/
def applyOne (st : St) (rev : Rev) : St :=
  let info := lookupPreds st.preds rev
  { ledger := ⟨st.ledger.applied ++ [rev],
               st.ledger.edges ++ info.allPreds.map (fun p => (p, rev))⟩,
    preds := (st.preds.filter (fun e => !(e.1 == rev))).map
               (fun e => (e.1, ⟨e.2.allPreds, e.2.outstanding.erase rev⟩)),
    executed := st.executed ++ [rev] }

/-- The frontier computation of lines 169-170 and 228-229: all dict entries
whose outstanding-predecessor list is empty, in dict order. -/
def frontierOf (m : List (Rev × PredInfo)) : List Rev :=
  (m.filter (fun e => e.2.outstanding.isEmpty)).map (·.1)

/-- One pass of the inner `for` loop over a frontier.  `fails rev = true`
models the transaction for `rev` raising (script error or constraint
violation): the transaction rolls back, nothing of it is committed, and the
exception aborts the remaining work (second component `true`). -/
def applyRoundF (fails : Rev → Bool) : St → List Rev → St × Bool
  | st, [] => (st, false)
  | st, rev :: rest =>
    if fails rev then (st, true)
    else applyRoundF fails (applyOne st rev) rest

/-- The `while not all_migrations_applied` loop of lines 205-230.  Each
iteration applies the current frontier, then recomputes it; the loop exits when
the recomputed frontier is empty.  Returns the final state, the list of rounds
processed, and whether a transaction failure aborted the run.  The fuel bounds
the number of iterations; callers pass enough for the loop to finish. -/
def applyLoopF (fails : Rev → Bool) : Nat → St → List Rev → St × List (List Rev) × Bool
  | 0, st, _ => (st, ([], false))
  | fuel+1, st, frontier =>
    match applyRoundF fails st frontier with
    | (st1, true) => (st1, ([], true))
    | (st1, false) =>
      let f' := frontierOf st1.preds
      if f'.isEmpty then (st1, ([frontier], false))
      else
        let r := applyLoopF fails fuel st1 f'
        (r.1, (frontier :: r.2.1, r.2.2))

/-- Exit status of one `apply_migrations` invocation: normal return, the
`sys.exit(1)` of the invalid-dependencies check (lines 171-176), or an
uncaught script/transaction exception. -/
inductive RunStatus
  | ok
  | graphError
  | scriptError
deriving DecidableEq

/-- Observable outcome of an `apply_migrations` run: exit status, final ledger,
forward scripts executed and committed (in order), and the rounds processed. -/
structure RunOutcome where
  status : RunStatus
  ledger : Ledger
  executed : List Rev
  rounds : List (List Rev)
deriving DecidableEq

/-- The pending dict after lines 145-147: the catalog minus the previously
applied revisions.  An applied identifier with no catalog entry is skipped by
the `if applied_migration in revision_to_file` guard, i.e. silently ignored. -/
def pendingOf (l0 : Ledger) (catalog : List (Rev × List String)) :
    List (Rev × List String) :=
  catalog.filter (fun e => !(l0.applied.contains e.1))

/-- The `revision_to_predecessors` dict built in lines 156-165. -/
def predsMapOf (l0 : Ledger) (catalog : List (Rev × List String)) :
    List (Rev × PredInfo) :=
  (pendingOf l0 catalog).map (fun e => (e.1, mkPredInfo l0.applied e.2))

/-- `apply_migrations` (lines 132-179) from the point where the catalog has
been discovered: `catalog` maps each identifier to the lines of its forward
script.  Reads the applied set from the ledger, computes the pending dict,
returns immediately when it is empty, exits with the unresolvable-graph error
when no pending revision has all predecessors applied, and otherwise runs
`_apply_revisions_to_database`. -/
def apply_migrationsF (fails : Rev → Bool) (l0 : Ledger)
    (catalog : List (Rev × List String)) : RunOutcome :=
  if (pendingOf l0 catalog).isEmpty then ⟨.ok, l0, [], []⟩
  else if (frontierOf (predsMapOf l0 catalog)).isEmpty then ⟨.graphError, l0, [], []⟩
  else
    ⟨if (applyLoopF fails (pendingOf l0 catalog).length ⟨l0, predsMapOf l0 catalog, []⟩
          (frontierOf (predsMapOf l0 catalog))).2.2 then .scriptError else .ok,
     (applyLoopF fails (pendingOf l0 catalog).length ⟨l0, predsMapOf l0 catalog, []⟩
          (frontierOf (predsMapOf l0 catalog))).1.ledger,
     (applyLoopF fails (pendingOf l0 catalog).length ⟨l0, predsMapOf l0 catalog, []⟩
          (frontierOf (predsMapOf l0 catalog))).1.executed,
     (applyLoopF fails (pendingOf l0 catalog).length ⟨l0, predsMapOf l0 catalog, []⟩
          (frontierOf (predsMapOf l0 catalog))).2.1⟩

/-- `apply_migrations` in the run where every per-migration transaction
succeeds. -/
def apply_migrations (l0 : Ledger) (catalog : List (Rev × List String)) :
    RunOutcome :=
  apply_migrationsF (fun _ => false) l0 catalog

/-- The `FIND_DEPENDENT_REVISIONS` query of `remove_migration` (line 185):
the dependents recorded for `rev` in the `dependent_revision` table. -/
def dependentsOf (l : Ledger) (rev : Rev) : List Rev :=
  (l.edges.filter (fun e => e.1 == rev)).map (·.2)

/-- Result of a (terminating) `remove_migration` call: final ledger, the
reverse scripts executed (in order), and the ledger after each committed
transaction (the intermediate states observable in the store). -/
structure RbResult where
  ledger : Ledger
  undone : List Rev
  trace : List Ledger
deriving DecidableEq

/-- Depth-first cascading removal (lines 182-200), processed as a work list:
for each target, first recursively remove the dependents recorded in the
ledger, then in one transaction execute the reverse script, delete the
target's `dependent_revision` rows (as dependent) and its `revision` row.
The fuel bounds the recursion depth (each recursive step, over a dependent
list or over the tail, consumes one unit); `none` means it ran out, which is
how the source's unbounded recursion failing to terminate is expressed. -/
def remove_list : Nat → List Rev → Ledger → Option RbResult
  | _, [], l => some ⟨l, [], []⟩
  | 0, _ :: _, _ => none
  | fuel+1, rev :: rest, l =>
    match remove_list fuel (dependentsOf l rev) l with
    | none => none
    | some r =>
      let l2 : Ledger := ⟨r.ledger.applied.filter (fun a => !(a == rev)),
                          r.ledger.edges.filter (fun e => !(e.2 == rev))⟩
      match remove_list fuel rest l2 with
      | none => none
      | some r2 =>
        some ⟨r2.ledger, (r.undone ++ [rev]) ++ r2.undone,
              (r.trace ++ [l2]) ++ r2.trace⟩

/-- `remove_migration(revision_to_remove, ...)`: cascading rollback of one
target. -/
def remove_migration (fuel : Nat) (rev : Rev) (l : Ledger) : Option RbResult :=
  remove_list fuel [rev] l

/-- Running `remove_migration` once for each target in `order` (the operator
invoking `down` repeatedly), threading the ledger. -/
def rollback_all (fuel : Nat) : List Rev → Ledger → Option Ledger
  | [], l => some l
  | r :: rest, l =>
    match remove_migration fuel r l with
    | none => none
    | some res => rollback_all fuel rest res.ledger

/-- The referential integrity the store's schema enforces on the ledger: every
`dependent_revision` row references existing `revision` rows (the two foreign
keys of the `dependent_revision` table). -/
def Consistent (l : Ledger) : Prop :=
  ∀ e ∈ l.edges, e.1 ∈ l.applied ∧ e.2 ∈ l.applied

instance (l : Ledger) : Decidable (Consistent l) := by
  unfold Consistent; infer_instance

end Migrate


namespace Migrate

/-! ## General list lemmas used throughout -/

/-- Every nonempty list has an element minimizing a `Nat`-valued image. -/
theorem exists_min_image_list {α : Type} (f : α → Nat) :
    ∀ (l : List α), l ≠ [] → ∃ a ∈ l, ∀ b ∈ l, f a ≤ f b := by
  intro l
  induction l with
  | nil => intro h; exact absurd rfl h
  | cons x xs ih =>
    intro _
    by_cases hxs : xs = []
    · subst hxs
      exact ⟨x, List.mem_cons_self x [], by
        intro b hb
        rcases List.mem_singleton.mp hb with rfl
        exact le_refl _⟩
    · obtain ⟨a, ha, hmin⟩ := ih hxs
      by_cases hfa : f x ≤ f a
      · refine ⟨x, List.mem_cons_self x xs, ?_⟩
        intro b hb
        rcases List.mem_cons.mp hb with rfl | hb
        · exact le_refl _
        · exact le_trans hfa (hmin b hb)
      · refine ⟨a, List.mem_cons_of_mem x ha, ?_⟩
        intro b hb
        rcases List.mem_cons.mp hb with rfl | hb
        · exact le_of_lt (lt_of_not_le hfa)
        · exact hmin b hb

/-- Splitting a list that ends in a single appended element against an
arbitrary `l1 ++ r :: l2` decomposition. -/
theorem append_singleton_split {α : Type} {l l1 l2 : List α} {a r : α}
    (h : l ++ [a] = l1 ++ r :: l2) :
    (l2 = [] ∧ l1 = l ∧ r = a) ∨ ∃ l2', l2 = l2' ++ [a] ∧ l = l1 ++ r :: l2' := by
  rcases List.eq_nil_or_concat l2 with rfl | ⟨l2', b, rfl⟩
  · have h' : l ++ [a] = l1 ++ [r] := h
    obtain ⟨h1, h2⟩ := List.append_inj' h' rfl
    have hra : a = r := by simpa using h2
    exact Or.inl ⟨rfl, h1.symm, hra.symm⟩
  · right
    rw [List.concat_eq_append] at h ⊢
    have h' : l ++ [a] = (l1 ++ r :: l2') ++ [b] := by rw [h]; simp
    obtain ⟨h1, h2⟩ := List.append_inj' h' rfl
    have hab : a = b := by simpa using h2
    exact ⟨l2', by rw [hab], h1⟩

/-- Membership in the flattened prefix of a list of lists, phrased with
explicit indices. -/
theorem mem_flatten_take {α : Type} (L : List (List α)) (i : Nat) (p : α) :
    p ∈ (L.take i).flatten ↔ ∃ j l', j < i ∧ L[j]? = some l' ∧ p ∈ l' := by
  induction L generalizing i with
  | nil =>
    simp
  | cons x xs ih =>
    cases i with
    | zero => simp
    | succ i =>
      simp only [List.take_succ_cons, List.flatten_cons, List.mem_append, ih]
      constructor
      · rintro (hp | ⟨j, l', hji, hidx, hmem⟩)
        · exact ⟨0, x, Nat.succ_pos i, List.getElem?_cons_zero, hp⟩
        · exact ⟨j + 1, l', Nat.succ_lt_succ hji, by rw [List.getElem?_cons_succ]; exact hidx, hmem⟩
      · rintro ⟨j, l', hji, hidx, hmem⟩
        cases j with
        | zero =>
          rw [List.getElem?_cons_zero] at hidx
          exact Or.inl (by rwa [(Option.some.injEq x l').mp hidx])
        | succ j =>
          rw [List.getElem?_cons_succ] at hidx
          exact Or.inr ⟨j, l', Nat.lt_of_succ_lt_succ hji, hidx, hmem⟩

/-! ## The erase-fold describing how outstanding lists evolve -/

/-- The cumulative effect on an outstanding-predecessor list of the
`predecessors[1].remove(revision)` calls performed for each applied revision,
in order. -/
def eraseFold (done : List Rev) (l : List Rev) : List Rev :=
  done.foldl (fun acc q => acc.erase q) l

theorem eraseFold_nil (l : List Rev) : eraseFold [] l = l := rfl

theorem eraseFold_cons (q : Rev) (done l : List Rev) :
    eraseFold (q :: done) l = eraseFold done (l.erase q) := rfl

theorem eraseFold_append (d1 d2 l : List Rev) :
    eraseFold (d1 ++ d2) l = eraseFold d2 (eraseFold d1 l) := by
  simp [eraseFold, List.foldl_append]

theorem count_eraseFold (done l : List Rev) (p : Rev) :
    (eraseFold done l).count p = l.count p - done.count p := by
  induction done generalizing l with
  | nil => simp [eraseFold]
  | cons q rest ih =>
    rw [eraseFold_cons, ih, List.count_erase, List.count_cons]
    by_cases h : (q == p) = true
    · rw [if_pos h]; omega
    · rw [if_neg h]; omega

theorem mem_eraseFold (done l : List Rev) (p : Rev) :
    p ∈ eraseFold done l ↔ done.count p < l.count p := by
  rw [← List.count_pos_iff, count_eraseFold]
  omega

theorem eraseFold_eq_nil_iff (done l : List Rev) :
    eraseFold done l = [] ↔ ∀ p ∈ l, l.count p ≤ done.count p := by
  constructor
  · intro h p hp
    by_contra hlt
    have : p ∈ eraseFold done l := (mem_eraseFold done l p).mpr (by omega)
    rw [h] at this
    exact absurd this (List.not_mem_nil p)
  · intro h
    rw [List.eq_nil_iff_forall_not_mem]
    intro p hp
    have h1 := (mem_eraseFold done l p).mp hp
    have h2 : p ∈ l := List.count_pos_iff.mp (by omega)
    exact absurd (h p h2) (by omega)

theorem eraseFold_nil_list (done : List Rev) : eraseFold done [] = [] := by
  induction done with
  | nil => rfl
  | cons q rest ih => rw [eraseFold_cons]; exact ih

/-! ## Association-list lemmas for the revision dictionaries -/

/-- In a dictionary with distinct keys, `find?` on a stored entry's key returns
exactly that entry. -/
theorem find?_eq_of_mem_nodup {β : Type} {m : List (Rev × β)} {e : Rev × β}
    (hnd : (m.map (·.1)).Nodup) (he : e ∈ m) :
    m.find? (fun x => x.1 == e.1) = some e := by
  induction m with
  | nil => exact absurd he (List.not_mem_nil e)
  | cons a rest ih =>
    rcases List.mem_cons.mp he with rfl | he'
    · rw [List.find?_cons_of_pos _ (by simp)]
    · have hne : a.1 ≠ e.1 := by
        intro hEq
        have : e.1 ∈ rest.map (·.1) := List.mem_map.mpr ⟨e, he', rfl⟩
        rw [← hEq] at this
        exact (List.nodup_cons.mp hnd).1 this
      rw [List.find?_cons_of_neg _ (by simp [hne])]
      exact ih (List.nodup_cons.mp hnd).2 he'

theorem lookupPreds_eq_of_mem {m : List (Rev × PredInfo)} {e : Rev × PredInfo}
    (hnd : (m.map (·.1)).Nodup) (he : e ∈ m) : lookupPreds m e.1 = e.2 := by
  unfold lookupPreds
  rw [find?_eq_of_mem_nodup hnd he]
  rfl

/-- Removing one key from a dictionary with distinct keys shrinks it by exactly
one entry. -/
theorem length_filter_out_key {β : Type} {m : List (Rev × β)} {r : Rev}
    (hnd : (m.map (·.1)).Nodup) (hr : r ∈ m.map (·.1)) :
    (m.filter (fun e => !(e.1 == r))).length + 1 = m.length := by
  induction m with
  | nil => exact absurd hr (List.not_mem_nil r)
  | cons a rest ih =>
    by_cases ha : a.1 = r
    · have hout : rest.filter (fun e => !(e.1 == r)) = rest := by
        rw [List.filter_eq_self]
        intro e he
        have : e.1 ∈ rest.map (·.1) := List.mem_map.mpr ⟨e, he, rfl⟩
        simp only [Bool.not_eq_true', beq_eq_false_iff_ne, ne_eq]
        intro hEq
        rw [hEq, ← ha] at this
        exact (List.nodup_cons.mp hnd).1 this
      rw [List.filter_cons_of_neg (by simp [ha]), hout, List.length_cons]
    · have hr' : r ∈ rest.map (·.1) := by
        rw [List.map_cons] at hr
        rcases List.mem_cons.mp hr with h | h
        · exact absurd h.symm ha
        · exact h
      have ihr := ih (List.nodup_cons.mp hnd).2 hr'
      rw [List.filter_cons_of_pos (by simp [ha]), List.length_cons, List.length_cons]
      omega

end Migrate

namespace Migrate

/-! ## Invariant of the apply loop -/

theorem applyOne_executed (st : St) (rev : Rev) :
    (applyOne st rev).executed = st.executed ++ [rev] := rfl

theorem applyOne_ledger_applied (st : St) (rev : Rev) :
    (applyOne st rev).ledger.applied = st.ledger.applied ++ [rev] := rfl

theorem applyOne_ledger_edges (st : St) (rev : Rev) :
    (applyOne st rev).ledger.edges
      = st.ledger.edges ++ (lookupPreds st.preds rev).allPreds.map (fun p => (p, rev)) := rfl

theorem applyOne_preds (st : St) (rev : Rev) :
    (applyOne st rev).preds
      = (st.preds.filter (fun e => !(e.1 == rev))).map
          (fun e => (e.1, ⟨e.2.allPreds, e.2.outstanding.erase rev⟩)) := rfl

/-- Invariant of `_apply_revisions_to_database` relative to the initial ledger
rows (`A0`, `E0`) and the initially built `revision_to_predecessors` dict
`P0`: the dict always holds exactly the pending revisions not yet applied,
with their outstanding lists obtained from the initial ones by erasing one
occurrence of each applied revision in order; the ledger rows are the initial
rows followed by exactly one `revision` row per committed migration and one
`dependent_revision` row per declared predecessor; and each migration was
committed only once its outstanding list had emptied. -/
structure ApplyInv (A0 : List Rev) (E0 : List (Rev × Rev))
    (P0 : List (Rev × PredInfo)) (st : St) : Prop where
  keys_nodup : (st.preds.map (·.1)).Nodup
  done_nodup : st.executed.Nodup
  keys_mem : ∀ r : Rev, r ∈ st.preds.map (·.1) ↔ (r ∈ P0.map (·.1) ∧ r ∉ st.executed)
  done_mem : ∀ r ∈ st.executed, r ∈ P0.map (·.1)
  entries : ∀ e ∈ st.preds,
    e.2.allPreds = (lookupPreds P0 e.1).allPreds ∧
    e.2.outstanding = eraseFold st.executed (lookupPreds P0 e.1).outstanding
  ledger_applied : st.ledger.applied = A0 ++ st.executed
  ledger_edges : st.ledger.edges =
    E0 ++ st.executed.flatMap (fun r => ((lookupPreds P0 r).allPreds).map (fun p => (p, r)))
  exec_order : ∀ l1 r l2, st.executed = l1 ++ r :: l2 →
    ∀ p : Rev, ((lookupPreds P0 r).outstanding).count p ≤ l1.count p

/-- The invariant holds on entry to the loop. -/
theorem applyInv_init {A0 : List Rev} {E0 : List (Rev × Rev)}
    {P0 : List (Rev × PredInfo)} (hnd : (P0.map (·.1)).Nodup) :
    ApplyInv A0 E0 P0 ⟨⟨A0, E0⟩, P0, []⟩ := by
  refine ⟨hnd, List.nodup_nil, ?_, ?_, ?_, ?_, ?_, ?_⟩
  · intro r
    simp
  · intro r hr
    exact absurd hr (List.not_mem_nil r)
  · intro e he
    rw [lookupPreds_eq_of_mem hnd he]
    exact ⟨rfl, (eraseFold_nil _).symm⟩
  · simp
  · simp
  · intro l1 r l2 h
    have hlen := congrArg List.length h
    rw [List.length_nil, List.length_append, List.length_cons] at hlen
    omega

/-- One committed transaction preserves the invariant, provided the committed
revision is still pending and its (initial) outstanding list has been fully
erased by the migrations applied so far. -/
theorem applyOne_inv {A0 : List Rev} {E0 : List (Rev × Rev)}
    {P0 : List (Rev × PredInfo)} {st : St} {rev : Rev}
    (hInv : ApplyInv A0 E0 P0 st)
    (hrev : rev ∈ st.preds.map (·.1))
    (hcnt : ∀ p : Rev, ((lookupPreds P0 rev).outstanding).count p ≤ st.executed.count p) :
    ApplyInv A0 E0 P0 (applyOne st rev) := by
  obtain ⟨e, he, herev⟩ := List.mem_map.mp hrev
  have hlook : lookupPreds st.preds rev = e.2 := by
    rw [← herev]; exact lookupPreds_eq_of_mem hInv.keys_nodup he
  have hrevnotdone : rev ∉ st.executed := ((hInv.keys_mem rev).mp hrev).2
  have hrevK0 : rev ∈ P0.map (·.1) := ((hInv.keys_mem rev).mp hrev).1
  have hkeys' : (applyOne st rev).preds.map (·.1)
      = (st.preds.filter (fun x => !(x.1 == rev))).map (·.1) := by
    rw [applyOne_preds, List.map_map]
    rfl
  refine ⟨?_, ?_, ?_, ?_, ?_, ?_, ?_, ?_⟩
  · rw [hkeys']
    exact hInv.keys_nodup.sublist (List.Sublist.map _ (List.filter_sublist _))
  · rw [applyOne_executed]
    exact List.Nodup.append hInv.done_nodup (List.nodup_singleton rev)
      (by simpa [List.disjoint_singleton] using hrevnotdone)
  · intro r
    rw [hkeys', applyOne_executed]
    constructor
    · intro hr
      obtain ⟨x, hx, hxr⟩ := List.mem_map.mp hr
      obtain ⟨hxm, hcond⟩ := List.mem_filter.mp hx
      have hxne : x.1 ≠ rev := by simpa using hcond
      have hrk : r ∈ st.preds.map (·.1) := List.mem_map.mpr ⟨x, hxm, hxr⟩
      obtain ⟨h1, h2⟩ := (hInv.keys_mem r).mp hrk
      refine ⟨h1, ?_⟩
      rw [List.mem_append, List.mem_singleton]
      rintro (h | rfl)
      · exact h2 h
      · exact hxne hxr
    · rintro ⟨h1, h2⟩
      rw [List.mem_append, List.mem_singleton] at h2
      push_neg at h2
      have hrk : r ∈ st.preds.map (·.1) := (hInv.keys_mem r).mpr ⟨h1, h2.1⟩
      obtain ⟨x, hxm, hxr⟩ := List.mem_map.mp hrk
      refine List.mem_map.mpr ⟨x, List.mem_filter.mpr ⟨hxm, ?_⟩, hxr⟩
      simp only [Bool.not_eq_true', beq_eq_false_iff_ne, ne_eq]
      rw [hxr]
      exact h2.2
  · intro r hr
    rw [applyOne_executed, List.mem_append, List.mem_singleton] at hr
    rcases hr with h | rfl
    · exact hInv.done_mem r h
    · exact hrevK0
  · intro e' he'
    rw [applyOne_preds] at he'
    obtain ⟨x, hx, hxe⟩ := List.mem_map.mp he'
    obtain ⟨hxm, _⟩ := List.mem_filter.mp hx
    obtain ⟨hall, hout⟩ := hInv.entries x hxm
    subst hxe
    refine ⟨hall, ?_⟩
    rw [applyOne_executed, eraseFold_append]
    simp only
    rw [hout]
    rfl
  · rw [applyOne_ledger_applied, applyOne_executed, hInv.ledger_applied,
      List.append_assoc]
  · rw [applyOne_ledger_edges, applyOne_executed, hInv.ledger_edges, hlook,
      List.append_assoc]
    congr 1
    rw [List.flatMap_append]
    congr 1
    have : e.2.allPreds = (lookupPreds P0 rev).allPreds := by
      rw [← herev]
      exact (hInv.entries e he).1
    simp [this]
  · intro l1 r l2 hsplit p
    rw [applyOne_executed] at hsplit
    rcases append_singleton_split hsplit with ⟨-, h1, h3⟩ | ⟨l2', -, h2⟩
    · subst h1
      rw [h3]
      exact hcnt p
    · exact hInv.exec_order l1 r l2' h2 p

end Migrate

namespace Migrate

/-- Effect of one pass of the inner `for` loop over a frontier whose members
are pending with empty outstanding lists: the invariant is preserved, a prefix
`pre` of the frontier (all of it when no transaction fails) is committed in
order, and the dict shrinks by exactly that prefix. -/
theorem applyRoundF_spec {A0 : List Rev} {E0 : List (Rev × Rev)}
    {P0 : List (Rev × PredInfo)} (fails : Rev → Bool) :
    ∀ (frontier : List Rev) (st : St),
    ApplyInv A0 E0 P0 st →
    (∀ r ∈ frontier, ∃ e ∈ st.preds, e.1 = r ∧ e.2.outstanding = []) →
    frontier.Nodup →
    ApplyInv A0 E0 P0 (applyRoundF fails st frontier).1 ∧
    ∃ pre suf, frontier = pre ++ suf ∧
      (applyRoundF fails st frontier).1.executed = st.executed ++ pre ∧
      (applyRoundF fails st frontier).1.preds.length + pre.length = st.preds.length ∧
      (∀ r ∈ pre, fails r = false) ∧
      ((applyRoundF fails st frontier).2 = false ↔ suf = []) := by
  intro frontier
  induction frontier with
  | nil =>
    intro st hInv _ _
    refine ⟨hInv, [], [], rfl, by simp [applyRoundF], by simp [applyRoundF], ?_, ?_⟩
    · intro r hr
      exact absurd hr (List.not_mem_nil r)
    · simp [applyRoundF]
  | cons rev rest ih =>
    intro st hInv hmem hnd
    by_cases hf : fails rev = true
    · have hres : applyRoundF fails st (rev :: rest) = (st, true) := by
        simp [applyRoundF, hf]
      rw [hres]
      refine ⟨hInv, [], rev :: rest, rfl, by simp, by simp, ?_, ?_⟩
      · intro r hr
        exact absurd hr (List.not_mem_nil r)
      · simp
    · have hf' : fails rev = false := by
        revert hf
        cases fails rev <;> simp
      have hres : applyRoundF fails st (rev :: rest)
          = applyRoundF fails (applyOne st rev) rest := by
        simp [applyRoundF, hf']
      obtain ⟨e, he, herev, hout⟩ := hmem rev (List.mem_cons_self rev rest)
      have hrev : rev ∈ st.preds.map (·.1) := List.mem_map.mpr ⟨e, he, herev⟩
      have hfold : eraseFold st.executed (lookupPreds P0 rev).outstanding = [] := by
        have := (hInv.entries e he).2
        rw [hout] at this
        rw [← herev]
        exact this.symm
      have hcnt : ∀ p : Rev,
          ((lookupPreds P0 rev).outstanding).count p ≤ st.executed.count p := by
        intro p
        by_cases hp : p ∈ (lookupPreds P0 rev).outstanding
        · exact (eraseFold_eq_nil_iff _ _).mp hfold p hp
        · rw [List.count_eq_zero_of_not_mem hp]
          exact Nat.zero_le _
      have hInv1 := applyOne_inv hInv hrev hcnt
      have hmem1 : ∀ r ∈ rest, ∃ e ∈ (applyOne st rev).preds, e.1 = r ∧
          e.2.outstanding = [] := by
        intro r hr
        obtain ⟨x, hx, hxr, hxout⟩ := hmem r (List.mem_cons_of_mem rev hr)
        have hxne : x.1 ≠ rev := by
          rw [hxr]
          intro hEq
          subst hEq
          exact (List.nodup_cons.mp hnd).1 hr
        refine ⟨(x.1, ⟨x.2.allPreds, x.2.outstanding.erase rev⟩), ?_, hxr, ?_⟩
        · rw [applyOne_preds]
          exact List.mem_map.mpr ⟨x, List.mem_filter.mpr ⟨hx, by simp [hxne]⟩, rfl⟩
        · simp [hxout]
      have hlen1 : (applyOne st rev).preds.length + 1 = st.preds.length := by
        rw [applyOne_preds, List.length_map]
        exact length_filter_out_key hInv.keys_nodup hrev
      obtain ⟨hInvF, pre', suf', hsplit, hexec, hplen, hpfails, hiff⟩ :=
        ih (applyOne st rev) hInv1 hmem1 (List.nodup_cons.mp hnd).2
      rw [hres]
      refine ⟨hInvF, rev :: pre', suf', by rw [hsplit]; rfl, ?_, ?_, ?_, hiff⟩
      · rw [hexec, applyOne_executed, List.append_assoc]
        rfl
      · rw [List.length_cons, ← hlen1]
        omega
      · intro r hr
        rcases List.mem_cons.mp hr with rfl | hr'
        · exact hf'
        · exact hpfails r hr'

end Migrate

namespace Migrate

theorem frontierOf_mem (m : List (Rev × PredInfo)) (r : Rev) :
    r ∈ frontierOf m ↔ ∃ e ∈ m, e.1 = r ∧ e.2.outstanding = [] := by
  unfold frontierOf
  constructor
  · intro h
    obtain ⟨e, he, her⟩ := List.mem_map.mp h
    obtain ⟨hm, hcond⟩ := List.mem_filter.mp he
    exact ⟨e, hm, her, List.isEmpty_iff.mp hcond⟩
  · rintro ⟨e, hm, her, hout⟩
    exact List.mem_map.mpr ⟨e, List.mem_filter.mpr ⟨hm, by simp [hout]⟩, her⟩

theorem frontierOf_nodup {m : List (Rev × PredInfo)}
    (h : (m.map (·.1)).Nodup) : (frontierOf m).Nodup :=
  h.sublist (List.Sublist.map _ (List.filter_sublist m))

/-- The loop preserves the invariant; when it is not aborted it commits exactly
its rounds in order, and everything newly committed had a succeeding
transaction. -/
theorem applyLoopF_inv {A0 : List Rev} {E0 : List (Rev × Rev)}
    {P0 : List (Rev × PredInfo)} (fails : Rev → Bool) :
    ∀ (fuel : Nat) (st : St) (frontier : List Rev),
    ApplyInv A0 E0 P0 st →
    frontier = frontierOf st.preds →
    ApplyInv A0 E0 P0 (applyLoopF fails fuel st frontier).1 ∧
    (∀ r ∈ (applyLoopF fails fuel st frontier).1.executed,
       r ∈ st.executed ∨ fails r = false) ∧
    ((applyLoopF fails fuel st frontier).2.2 = false →
       (applyLoopF fails fuel st frontier).1.executed
         = st.executed ++ (applyLoopF fails fuel st frontier).2.1.flatten) := by
  intro fuel
  induction fuel with
  | zero =>
    intro st frontier hInv _
    refine ⟨hInv, ?_, ?_⟩
    · intro r hr
      exact Or.inl hr
    · intro _
      simp [applyLoopF]
  | succ fuel ih =>
    intro st frontier hInv hfr
    have hmem : ∀ r ∈ frontier, ∃ e ∈ st.preds, e.1 = r ∧ e.2.outstanding = [] := by
      intro r hr
      rw [hfr] at hr
      exact (frontierOf_mem _ _).mp hr
    have hnd : frontier.Nodup := hfr ▸ frontierOf_nodup hInv.keys_nodup
    obtain ⟨hInv1, pre, suf, hps, hexec, hplen, hpfails, hiff⟩ :=
      applyRoundF_spec fails frontier st hInv hmem hnd
    rcases hR : applyRoundF fails st frontier with ⟨st1, ab⟩
    rw [hR] at hInv1 hexec hplen hiff
    cases ab with
    | true =>
      have hres : applyLoopF fails (fuel+1) st frontier = (st1, ([], true)) := by
        simp [applyLoopF, hR]
      rw [hres]
      refine ⟨hInv1, ?_, ?_⟩
      · intro r hr
        simp only at hr
        rw [hexec, List.mem_append] at hr
        rcases hr with h | h
        · exact Or.inl h
        · exact Or.inr (hpfails r h)
      · intro h
        exact absurd h (by simp)
    | false =>
      have hsuf : suf = [] := hiff.mp rfl
      have hpre : pre = frontier := by rw [hps, hsuf, List.append_nil]
      by_cases hf' : (frontierOf st1.preds).isEmpty = true
      · have hres : applyLoopF fails (fuel+1) st frontier = (st1, ([frontier], false)) := by
          simp [applyLoopF, hR, hf']
        rw [hres]
        refine ⟨hInv1, ?_, ?_⟩
        · intro r hr
          simp only at hr
          rw [hexec, List.mem_append] at hr
          rcases hr with h | h
          · exact Or.inl h
          · exact Or.inr (hpfails r (hpre ▸ h))
        · intro _
          simp only
          rw [hexec, hpre]
          simp
      · have hres : applyLoopF fails (fuel+1) st frontier
            = ((applyLoopF fails fuel st1 (frontierOf st1.preds)).1,
               (frontier :: (applyLoopF fails fuel st1 (frontierOf st1.preds)).2.1,
                (applyLoopF fails fuel st1 (frontierOf st1.preds)).2.2)) := by
          simp [applyLoopF, hR, hf']
        obtain ⟨ihInv, ihexec, ihflat⟩ := ih st1 (frontierOf st1.preds) hInv1 rfl
        rw [hres]
        refine ⟨ihInv, ?_, ?_⟩
        · intro r hr
          simp only at hr
          rcases ihexec r hr with h | h
          · rw [hexec, List.mem_append] at h
            rcases h with h' | h'
            · exact Or.inl h'
            · exact Or.inr (hpfails r (hpre ▸ h'))
          · exact Or.inr h
        · intro hab
          simp only at hab ⊢
          rw [ihflat hab, hexec, hpre, List.flatten_cons, List.append_assoc]

/-- With no transaction failures a round never aborts. -/
theorem applyRoundF_noFail : ∀ (frontier : List Rev) (st : St),
    (applyRoundF (fun _ => false) st frontier).2 = false := by
  intro frontier
  induction frontier with
  | nil => intro st; rfl
  | cons rev rest ih =>
    intro st
    simp only [applyRoundF, if_neg (by simp : ¬((fun (_ : Rev) => false) rev = true))]
    exact ih (applyOne st rev)

/-- With no transaction failures the loop never aborts. -/
theorem applyLoopF_noFail : ∀ (fuel : Nat) (st : St) (frontier : List Rev),
    (applyLoopF (fun _ => false) fuel st frontier).2.2 = false := by
  intro fuel
  induction fuel with
  | zero => intro st frontier; rfl
  | succ fuel ih =>
    intro st frontier
    rcases hR : applyRoundF (fun _ => false) st frontier with ⟨st1, ab⟩
    have : ab = false := by
      have := applyRoundF_noFail frontier st
      rw [hR] at this
      exact this
    subst this
    by_cases hf' : (frontierOf st1.preds).isEmpty = true
    · simp [applyLoopF, hR, hf']
    · simp only [applyLoopF, hR, hf']
      simp only [Bool.false_eq_true, if_false]
      exact ih st1 (frontierOf st1.preds)

/-- Fuel adequacy: when it starts from a nonempty frontier with at least as
much fuel as there are pending revisions (which is what `apply_migrations`
passes), the failure-free loop runs until the recomputed frontier is empty,
i.e. the `while` loop of the source genuinely terminates via its exit
condition. -/
theorem applyLoopF_adequate {A0 : List Rev} {E0 : List (Rev × Rev)}
    {P0 : List (Rev × PredInfo)} :
    ∀ (fuel : Nat) (st : St) (frontier : List Rev),
    ApplyInv A0 E0 P0 st →
    frontier = frontierOf st.preds →
    frontier ≠ [] →
    st.preds.length ≤ fuel →
    frontierOf (applyLoopF (fun _ => false) fuel st frontier).1.preds = [] := by
  intro fuel
  induction fuel with
  | zero =>
    intro st frontier hInv hfr hne hlen
    have h0 : st.preds = [] := List.length_eq_zero.mp (Nat.le_zero.mp hlen)
    rw [hfr, h0] at hne
    exact absurd rfl hne
  | succ fuel ih =>
    intro st frontier hInv hfr hne hlen
    have hmem : ∀ r ∈ frontier, ∃ e ∈ st.preds, e.1 = r ∧ e.2.outstanding = [] := by
      intro r hr
      rw [hfr] at hr
      exact (frontierOf_mem _ _).mp hr
    have hnd : frontier.Nodup := hfr ▸ frontierOf_nodup hInv.keys_nodup
    obtain ⟨hInv1, pre, suf, hps, hexec, hplen, hpfails, hiff⟩ :=
      applyRoundF_spec (fun _ => false) frontier st hInv hmem hnd
    rcases hR : applyRoundF (fun _ => false) st frontier with ⟨st1, ab⟩
    have hab : ab = false := by
      have := applyRoundF_noFail frontier st
      rw [hR] at this
      exact this
    subst hab
    rw [hR] at hInv1 hexec hplen hiff
    have hsuf : suf = [] := hiff.mp rfl
    have hpre : pre = frontier := by rw [hps, hsuf, List.append_nil]
    by_cases hf' : (frontierOf st1.preds).isEmpty = true
    · have hres : applyLoopF (fun _ => false) (fuel+1) st frontier
          = (st1, ([frontier], false)) := by
        simp [applyLoopF, hR, hf']
      rw [hres]
      exact List.isEmpty_iff.mp hf'
    · have hres : applyLoopF (fun _ => false) (fuel+1) st frontier
          = ((applyLoopF (fun _ => false) fuel st1 (frontierOf st1.preds)).1,
             (frontier :: (applyLoopF (fun _ => false) fuel st1 (frontierOf st1.preds)).2.1,
              (applyLoopF (fun _ => false) fuel st1 (frontierOf st1.preds)).2.2)) := by
        simp [applyLoopF, hR, hf']
      rw [hres]
      have hfne : frontierOf st1.preds ≠ [] := by
        intro h
        rw [h] at hf'
        exact hf' rfl
      have hlen1 : st1.preds.length ≤ fuel := by
        have hfl : 1 ≤ frontier.length := by
          cases frontier with
          | nil => exact absurd rfl hne
          | cons a l => simp
        have hplen' : st1.preds.length + pre.length = st.preds.length := hplen
        rw [hpre] at hplen'
        omega
      exact ih st1 (frontierOf st1.preds) hInv1 rfl hfne hlen1

end Migrate

namespace Migrate

/-- Round ordering produced by the failure-free loop: whenever a revision is
committed in round `i`, each of its initially outstanding predecessors was
already committed before round `i` started. -/
theorem applyLoopF_rounds_order {A0 : List Rev} {E0 : List (Rev × Rev)}
    {P0 : List (Rev × PredInfo)} :
    ∀ (fuel : Nat) (st : St) (frontier : List Rev),
    ApplyInv A0 E0 P0 st →
    frontier = frontierOf st.preds →
    ∀ (i : Nat) (round : List Rev),
    (applyLoopF (fun _ => false) fuel st frontier).2.1[i]? = some round →
    ∀ r ∈ round, ∀ p ∈ (lookupPreds P0 r).outstanding,
      p ∈ st.executed ++ ((applyLoopF (fun _ => false) fuel st frontier).2.1.take i).flatten := by
  intro fuel
  induction fuel with
  | zero =>
    intro st frontier hInv hfr i round hidx
    simp [applyLoopF] at hidx
  | succ fuel ih =>
    intro st frontier hInv hfr i round hidx r hr p hp
    have hmem : ∀ r' ∈ frontier, ∃ e ∈ st.preds, e.1 = r' ∧ e.2.outstanding = [] := by
      intro r' hr'
      rw [hfr] at hr'
      exact (frontierOf_mem _ _).mp hr'
    have hnd : frontier.Nodup := hfr ▸ frontierOf_nodup hInv.keys_nodup
    obtain ⟨hInv1, pre, suf, hps, hexec, hplen, hpfails, hiff⟩ :=
      applyRoundF_spec (fun _ => false) frontier st hInv hmem hnd
    rcases hR : applyRoundF (fun _ => false) st frontier with ⟨st1, ab⟩
    have hab : ab = false := by
      have := applyRoundF_noFail frontier st
      rw [hR] at this
      exact this
    subst hab
    rw [hR] at hInv1 hexec hplen hiff
    have hexec1 : st1.executed = st.executed ++ pre := hexec
    have hInv1' : ApplyInv A0 E0 P0 st1 := hInv1
    have hsuf : suf = [] := hiff.mp rfl
    have hpre : pre = frontier := by rw [hps, hsuf, List.append_nil]
    have hfrontmem : ∀ r', r' ∈ frontier → ∀ p', p' ∈ (lookupPreds P0 r').outstanding →
        p' ∈ st.executed := by
      intro r' hr' p' hp'
      obtain ⟨e, he, her, hout⟩ := hmem r' hr'
      have hfold : eraseFold st.executed (lookupPreds P0 r').outstanding = [] := by
        have := (hInv.entries e he).2
        rw [hout] at this
        rw [← her]
        exact this.symm
      have hle := (eraseFold_eq_nil_iff _ _).mp hfold p' hp'
      have hpos : 0 < ((lookupPreds P0 r').outstanding).count p' :=
        List.count_pos_iff.mpr hp'
      exact List.count_pos_iff.mp (by omega)
    by_cases hf' : (frontierOf st1.preds).isEmpty = true
    · have hres1 : (applyLoopF (fun _ => false) (fuel+1) st frontier).2.1 = [frontier] := by
        simp [applyLoopF, hR, hf']
      rw [hres1] at hidx ⊢
      cases i with
      | zero =>
        have hround : round = frontier := by
          simp at hidx
          exact hidx.symm
        subst hround
        rw [List.mem_append]
        exact Or.inl (hfrontmem r hr p hp)
      | succ i =>
        simp at hidx
    · have hres1 : (applyLoopF (fun _ => false) (fuel+1) st frontier).2.1
          = frontier :: (applyLoopF (fun _ => false) fuel st1 (frontierOf st1.preds)).2.1 := by
        simp [applyLoopF, hR, hf']
      rw [hres1] at hidx ⊢
      cases i with
      | zero =>
        have hround : round = frontier := by
          simp at hidx
          exact hidx.symm
        subst hround
        rw [List.mem_append]
        exact Or.inl (hfrontmem r hr p hp)
      | succ i =>
        rw [List.getElem?_cons_succ] at hidx
        have := ih st1 (frontierOf st1.preds) hInv1' rfl i round hidx r hr p hp
        rw [List.mem_append] at this ⊢
        rcases this with h | h
        · rw [hexec1, hpre, List.mem_append] at h
          rcases h with h' | h'
          · exact Or.inl h'
          · refine Or.inr ?_
            rw [List.take_succ_cons, List.flatten_cons, List.mem_append]
            exact Or.inl h'
        · refine Or.inr ?_
          rw [List.take_succ_cons, List.flatten_cons, List.mem_append]
          exact Or.inr h

/-- Progress: under the closure, acyclicity (given by a topological rank) and
duplicate-freeness assumptions of the resolver contract, a nonempty pending
dict always has a nonempty frontier, so the loop can only stop once everything
pending is applied. -/
theorem applyInv_progress {A0 : List Rev} {E0 : List (Rev × Rev)}
    {P0 : List (Rev × PredInfo)} {st : St} (rank : Rev → Nat)
    (hnd0 : (P0.map (·.1)).Nodup)
    (hInv : ApplyInv A0 E0 P0 st)
    (hclo : ∀ e ∈ P0, ∀ p ∈ e.2.outstanding, p ∈ P0.map (·.1))
    (hrank : ∀ e ∈ P0, ∀ p ∈ e.2.outstanding, rank p < rank e.1)
    (hnodupP : ∀ e ∈ P0, e.2.outstanding.Nodup)
    (hne : st.preds ≠ []) :
    frontierOf st.preds ≠ [] := by
  intro hfr
  have hall : ∀ e ∈ st.preds, e.2.outstanding ≠ [] := by
    intro e he hout
    have : e.1 ∈ frontierOf st.preds := (frontierOf_mem _ _).mpr ⟨e, he, rfl, hout⟩
    rw [hfr] at this
    exact absurd this (List.not_mem_nil _)
  obtain ⟨e, he, hmin⟩ := exists_min_image_list (fun x => rank x.1) st.preds hne
  obtain ⟨p, hp⟩ := List.exists_mem_of_ne_nil _ (hall e he)
  have hent := (hInv.entries e he).2
  rw [hent] at hp
  have hcnt := (mem_eraseFold _ _ p).mp hp
  have hp0 : p ∈ (lookupPreds P0 e.1).outstanding := List.count_pos_iff.mp (by omega)
  have hek : e.1 ∈ P0.map (·.1) := ((hInv.keys_mem e.1).mp (List.mem_map.mpr ⟨e, he, rfl⟩)).1
  obtain ⟨e0, he0, he0k⟩ := List.mem_map.mp hek
  have hlook0 : lookupPreds P0 e.1 = e0.2 := by
    rw [← he0k]
    exact lookupPreds_eq_of_mem hnd0 he0
  rw [hlook0] at hp0 hcnt
  have hpk0 : p ∈ P0.map (·.1) := hclo e0 he0 p hp0
  have hcle1 : (e0.2.outstanding).count p ≤ 1 :=
    List.nodup_iff_count_le_one.mp (hnodupP e0 he0) p
  have hpnotdone : p ∉ st.executed := by
    intro hmem
    have := List.count_pos_iff.mpr hmem
    omega
  have hpk : p ∈ st.preds.map (·.1) := (hInv.keys_mem p).mpr ⟨hpk0, hpnotdone⟩
  obtain ⟨ep, hep, hepk⟩ := List.mem_map.mp hpk
  have h1 : rank p < rank e.1 := by
    rw [← he0k]
    exact hrank e0 he0 p hp0
  have h2 : rank e.1 ≤ rank ep.1 := hmin ep hep
  rw [hepk] at h2
  omega

end Migrate

namespace Migrate

/-! ## Bridging the catalog level and the dict level -/

theorem predsMapOf_keys (l0 : Ledger) (catalog : List (Rev × List String)) :
    (predsMapOf l0 catalog).map (·.1) = (pendingOf l0 catalog).map (·.1) := by
  unfold predsMapOf
  rw [List.map_map]
  rfl

theorem pendingOf_keys_nodup {l0 : Ledger} {catalog : List (Rev × List String)}
    (hcat : (catalog.map (·.1)).Nodup) :
    ((pendingOf l0 catalog).map (·.1)).Nodup :=
  hcat.sublist (List.Sublist.map _ (List.filter_sublist _))

theorem mem_pendingOf {l0 : Ledger} {catalog : List (Rev × List String)}
    {e : Rev × List String} :
    e ∈ pendingOf l0 catalog ↔ e ∈ catalog ∧ e.1 ∉ l0.applied := by
  unfold pendingOf
  rw [List.mem_filter]
  simp

theorem mem_pending_keys {l0 : Ledger} {catalog : List (Rev × List String)} {r : Rev} :
    r ∈ (pendingOf l0 catalog).map (·.1) ↔ r ∈ catalog.map (·.1) ∧ r ∉ l0.applied := by
  constructor
  · intro h
    obtain ⟨e, he, her⟩ := List.mem_map.mp h
    obtain ⟨hec, hep⟩ := mem_pendingOf.mp he
    exact ⟨List.mem_map.mpr ⟨e, hec, her⟩, her ▸ hep⟩
  · rintro ⟨h1, h2⟩
    obtain ⟨e, he, her⟩ := List.mem_map.mp h1
    exact List.mem_map.mpr ⟨e, mem_pendingOf.mpr ⟨he, her ▸ h2⟩, her⟩

theorem mkPredInfo_allPreds (applied : List Rev) (lines : List String) :
    (mkPredInfo applied lines).allPreds = extractPredecessors lines := rfl

theorem mem_mkPredInfo_outstanding {applied : List Rev} {lines : List String} {p : Rev} :
    p ∈ (mkPredInfo applied lines).outstanding ↔
      p ∈ extractPredecessors lines ∧ p ∉ applied := by
  unfold mkPredInfo
  simp only [List.mem_filter]
  simp

theorem lookupPreds_predsMapOf {l0 : Ledger} {catalog : List (Rev × List String)}
    (hcat : (catalog.map (·.1)).Nodup) {e : Rev × List String}
    (he : e ∈ catalog) (hpend : e.1 ∉ l0.applied) :
    lookupPreds (predsMapOf l0 catalog) e.1 = mkPredInfo l0.applied e.2 := by
  have hmem : ((e.1, mkPredInfo l0.applied e.2) : Rev × PredInfo)
      ∈ predsMapOf l0 catalog := by
    unfold predsMapOf
    exact List.mem_map.mpr ⟨e, mem_pendingOf.mpr ⟨he, hpend⟩, rfl⟩
  have hnd : ((predsMapOf l0 catalog).map (·.1)).Nodup := by
    rw [predsMapOf_keys]
    exact pendingOf_keys_nodup hcat
  exact lookupPreds_eq_of_mem hnd hmem

/-- The resolver-contract hypotheses, transported from the catalog to the
`revision_to_predecessors` dict. -/
theorem predsMapOf_resolver_hyps {l0 : Ledger} {catalog : List (Rev × List String)}
    (rank : Rev → Nat)
    (hcat : (catalog.map (·.1)).Nodup)
    (hpdup : ∀ e ∈ catalog, (extractPredecessors e.2).Nodup)
    (hclo : ∀ e ∈ catalog, e.1 ∉ l0.applied →
      ∀ p ∈ extractPredecessors e.2, p ∈ l0.applied ∨ p ∈ catalog.map (·.1))
    (hrank : ∀ e ∈ catalog, e.1 ∉ l0.applied →
      ∀ p ∈ extractPredecessors e.2, p ∉ l0.applied → rank p < rank e.1) :
    (∀ e ∈ predsMapOf l0 catalog, ∀ p ∈ e.2.outstanding,
       p ∈ (predsMapOf l0 catalog).map (·.1)) ∧
    (∀ e ∈ predsMapOf l0 catalog, ∀ p ∈ e.2.outstanding, rank p < rank e.1) ∧
    (∀ e ∈ predsMapOf l0 catalog, e.2.outstanding.Nodup) := by
  have hdecomp : ∀ e' ∈ predsMapOf l0 catalog, ∃ e ∈ catalog,
      e.1 ∉ l0.applied ∧ e' = (e.1, mkPredInfo l0.applied e.2) := by
    intro e' he'
    obtain ⟨e, he, hee⟩ := List.mem_map.mp he'
    obtain ⟨hec, hep⟩ := mem_pendingOf.mp he
    exact ⟨e, hec, hep, hee.symm⟩
  refine ⟨?_, ?_, ?_⟩
  · intro e' he' p hp
    obtain ⟨e, hec, hep, rfl⟩ := hdecomp e' he'
    obtain ⟨hpx, hpa⟩ := mem_mkPredInfo_outstanding.mp hp
    rcases hclo e hec hep p hpx with h | h
    · exact absurd h hpa
    · rw [predsMapOf_keys]
      exact mem_pending_keys.mpr ⟨h, hpa⟩
  · intro e' he' p hp
    obtain ⟨e, hec, hep, rfl⟩ := hdecomp e' he'
    obtain ⟨hpx, hpa⟩ := mem_mkPredInfo_outstanding.mp hp
    exact hrank e hec hep p hpx hpa
  · intro e' he'
    obtain ⟨e, hec, hep, rfl⟩ := hdecomp e' he'
    exact (hpdup e hec).filter _

end Migrate

namespace Migrate

theorem mem_of_idx {α : Type} {l : List α} {i : Nat} {a : α}
    (h : l[i]? = some a) : a ∈ l := by
  obtain ⟨hlt, rfl⟩ := List.getElem?_eq_some.mp h
  exact List.getElem_mem hlt

/-- The run of `apply_migrations` in the main case: there are pending
revisions and the initial frontier is nonempty, so the loop runs. -/
theorem apply_migrationsF_run (fails : Rev → Bool) (l0 : Ledger)
    (catalog : List (Rev × List String))
    (hp : ¬(pendingOf l0 catalog).isEmpty = true)
    (hf : ¬(frontierOf (predsMapOf l0 catalog)).isEmpty = true) :
    apply_migrationsF fails l0 catalog =
      ⟨if (applyLoopF fails (pendingOf l0 catalog).length ⟨l0, predsMapOf l0 catalog, []⟩
            (frontierOf (predsMapOf l0 catalog))).2.2 then RunStatus.scriptError
        else RunStatus.ok,
       (applyLoopF fails (pendingOf l0 catalog).length ⟨l0, predsMapOf l0 catalog, []⟩
            (frontierOf (predsMapOf l0 catalog))).1.ledger,
       (applyLoopF fails (pendingOf l0 catalog).length ⟨l0, predsMapOf l0 catalog, []⟩
            (frontierOf (predsMapOf l0 catalog))).1.executed,
       (applyLoopF fails (pendingOf l0 catalog).length ⟨l0, predsMapOf l0 catalog, []⟩
            (frontierOf (predsMapOf l0 catalog))).2.1⟩ := by
  unfold apply_migrationsF
  rw [if_neg hp, if_neg hf]

/-- Claim C2: for an acyclic declared-predecessor graph over the pending
migrations (acyclicity given as a topological rank, with declared-predecessor
sets duplicate-free as in the resolver contract's `set<string>`, and each
predecessor either already applied or pending), `apply_migrations` terminates
normally, every pending migration is assigned to a round, rounds are disjoint,
and each migration's round index is strictly greater than that of each of its
declared predecessors that was also pending. -/
theorem resolve_acyclic_rounds (l0 : Ledger) (catalog : List (Rev × List String))
    (rank : Rev → Nat)
    (hcat : (catalog.map (·.1)).Nodup)
    (hpdup : ∀ e ∈ catalog, (extractPredecessors e.2).Nodup)
    (hclo : ∀ e ∈ catalog, e.1 ∉ l0.applied →
      ∀ p ∈ extractPredecessors e.2, p ∈ l0.applied ∨ p ∈ catalog.map (·.1))
    (hrank : ∀ e ∈ catalog, e.1 ∉ l0.applied →
      ∀ p ∈ extractPredecessors e.2, p ∉ l0.applied → rank p < rank e.1) :
    (apply_migrations l0 catalog).status = RunStatus.ok ∧
    (apply_migrations l0 catalog).rounds.flatten.Nodup ∧
    (∀ e ∈ catalog, e.1 ∉ l0.applied →
      ∃ (i : Nat) (round : List Rev),
        (apply_migrations l0 catalog).rounds[i]? = some round ∧ e.1 ∈ round) ∧
    (∀ (i : Nat) (round : List Rev),
      (apply_migrations l0 catalog).rounds[i]? = some round →
      ∀ r ∈ round, ∀ e ∈ catalog, e.1 = r →
      ∀ p ∈ extractPredecessors e.2, p ∉ l0.applied →
      ∃ (j : Nat) (round' : List Rev), j < i ∧
        (apply_migrations l0 catalog).rounds[j]? = some round' ∧ p ∈ round') := by
  by_cases hpe : (pendingOf l0 catalog).isEmpty = true
  · have hout : apply_migrations l0 catalog = ⟨.ok, l0, [], []⟩ := by
      unfold apply_migrations apply_migrationsF
      rw [if_pos hpe]
    rw [hout]
    refine ⟨rfl, by simp, ?_, ?_⟩
    · intro e he hep
      exfalso
      have hmem : e ∈ pendingOf l0 catalog := mem_pendingOf.mpr ⟨he, hep⟩
      rw [List.isEmpty_iff.mp hpe] at hmem
      exact absurd hmem (List.not_mem_nil e)
    · intro i round hidx
      simp at hidx
  · have hpne : pendingOf l0 catalog ≠ [] := fun h => hpe (by rw [h]; rfl)
    have hnd0 : ((predsMapOf l0 catalog).map (·.1)).Nodup := by
      rw [predsMapOf_keys]
      exact pendingOf_keys_nodup hcat
    obtain ⟨hclo0, hrank0, hnodup0⟩ := predsMapOf_resolver_hyps rank hcat hpdup hclo hrank
    have hInv0 : ApplyInv l0.applied l0.edges (predsMapOf l0 catalog)
        ⟨l0, predsMapOf l0 catalog, []⟩ := applyInv_init hnd0
    have hne0 : (⟨l0, predsMapOf l0 catalog, []⟩ : St).preds ≠ [] := by
      intro h
      exact hpne (List.map_eq_nil_iff.mp h)
    have hfne : frontierOf (predsMapOf l0 catalog) ≠ [] :=
      applyInv_progress rank hnd0 hInv0 hclo0 hrank0 hnodup0 hne0
    have hfe : ¬(frontierOf (predsMapOf l0 catalog)).isEmpty = true :=
      fun h => hfne (List.isEmpty_iff.mp h)
    have hrun : apply_migrations l0 catalog =
        ⟨if (applyLoopF (fun _ => false) (pendingOf l0 catalog).length
              ⟨l0, predsMapOf l0 catalog, []⟩
              (frontierOf (predsMapOf l0 catalog))).2.2 then RunStatus.scriptError
          else RunStatus.ok,
         (applyLoopF (fun _ => false) (pendingOf l0 catalog).length
              ⟨l0, predsMapOf l0 catalog, []⟩
              (frontierOf (predsMapOf l0 catalog))).1.ledger,
         (applyLoopF (fun _ => false) (pendingOf l0 catalog).length
              ⟨l0, predsMapOf l0 catalog, []⟩
              (frontierOf (predsMapOf l0 catalog))).1.executed,
         (applyLoopF (fun _ => false) (pendingOf l0 catalog).length
              ⟨l0, predsMapOf l0 catalog, []⟩
              (frontierOf (predsMapOf l0 catalog))).2.1⟩ := by
      unfold apply_migrations
      exact apply_migrationsF_run _ l0 catalog hpe hfe
    have hflag : (applyLoopF (fun _ => false) (pendingOf l0 catalog).length
        ⟨l0, predsMapOf l0 catalog, []⟩
        (frontierOf (predsMapOf l0 catalog))).2.2 = false :=
      applyLoopF_noFail _ _ _
    obtain ⟨hInvF, hexecor, hflatten⟩ :=
      applyLoopF_inv (fun _ => false)
        (pendingOf l0 catalog).length ⟨l0, predsMapOf l0 catalog, []⟩
        (frontierOf (predsMapOf l0 catalog)) hInv0 rfl
    have hflat : (applyLoopF (fun _ => false) (pendingOf l0 catalog).length
        ⟨l0, predsMapOf l0 catalog, []⟩
        (frontierOf (predsMapOf l0 catalog))).1.executed
        = (applyLoopF (fun _ => false) (pendingOf l0 catalog).length
        ⟨l0, predsMapOf l0 catalog, []⟩
        (frontierOf (predsMapOf l0 catalog))).2.1.flatten := by
      have := hflatten hflag
      simpa using this
    have hlen0 : (⟨l0, predsMapOf l0 catalog, []⟩ : St).preds.length
        ≤ (pendingOf l0 catalog).length := by
      simp only
      rw [predsMapOf]
      rw [List.length_map]
    have hade : frontierOf (applyLoopF (fun _ => false) (pendingOf l0 catalog).length
        ⟨l0, predsMapOf l0 catalog, []⟩
        (frontierOf (predsMapOf l0 catalog))).1.preds = [] :=
      applyLoopF_adequate _ _ _ hInv0 rfl hfne hlen0
    have hpredsF : (applyLoopF (fun _ => false) (pendingOf l0 catalog).length
        ⟨l0, predsMapOf l0 catalog, []⟩
        (frontierOf (predsMapOf l0 catalog))).1.preds = [] := by
      by_contra h
      exact applyInv_progress rank hnd0 hInvF hclo0 hrank0 hnodup0 h hade
    rw [hrun]
    simp only [hflag, if_neg (by simp : ¬(false = true))]
    refine ⟨by trivial, ?_, ?_, ?_⟩
    · rw [← hflat]
      exact hInvF.done_nodup
    · intro e he hep
      have hkey : e.1 ∈ (predsMapOf l0 catalog).map (·.1) := by
        rw [predsMapOf_keys]
        exact mem_pending_keys.mpr ⟨List.mem_map.mpr ⟨e, he, rfl⟩, hep⟩
      have hnotkeyF : e.1 ∉ (applyLoopF (fun _ => false) (pendingOf l0 catalog).length
          ⟨l0, predsMapOf l0 catalog, []⟩
          (frontierOf (predsMapOf l0 catalog))).1.preds.map (·.1) := by
        rw [hpredsF]
        exact List.not_mem_nil _
      have hdone : e.1 ∈ (applyLoopF (fun _ => false) (pendingOf l0 catalog).length
          ⟨l0, predsMapOf l0 catalog, []⟩
          (frontierOf (predsMapOf l0 catalog))).1.executed := by
        by_contra h
        exact hnotkeyF ((hInvF.keys_mem e.1).mpr ⟨hkey, h⟩)
      rw [hflat] at hdone
      obtain ⟨round, hrmem, hin⟩ := List.mem_flatten.mp hdone
      obtain ⟨i, hidx⟩ := List.mem_iff_getElem?.mp hrmem
      exact ⟨i, round, hidx, hin⟩
    · intro i round hidx r hr e he her p hp hpa
      have hrmem : round ∈ (applyLoopF (fun _ => false) (pendingOf l0 catalog).length
          ⟨l0, predsMapOf l0 catalog, []⟩
          (frontierOf (predsMapOf l0 catalog))).2.1 := mem_of_idx hidx
      have hrdone : r ∈ (applyLoopF (fun _ => false) (pendingOf l0 catalog).length
          ⟨l0, predsMapOf l0 catalog, []⟩
          (frontierOf (predsMapOf l0 catalog))).1.executed := by
        rw [hflat]
        exact List.mem_flatten.mpr ⟨round, hrmem, hr⟩
      have hrpend : r ∉ l0.applied := by
        have := hInvF.done_mem r hrdone
        rw [predsMapOf_keys] at this
        exact (mem_pending_keys.mp this).2
      have hplook : p ∈ (lookupPreds (predsMapOf l0 catalog) r).outstanding := by
        rw [← her, lookupPreds_predsMapOf hcat he (her ▸ hrpend)]
        exact mem_mkPredInfo_outstanding.mpr ⟨hp, hpa⟩
      have horder := applyLoopF_rounds_order
        (pendingOf l0 catalog).length ⟨l0, predsMapOf l0 catalog, []⟩
        (frontierOf (predsMapOf l0 catalog)) hInv0 rfl i round hidx r hr p hplook
      have horder' : p ∈ ((applyLoopF (fun _ => false) (pendingOf l0 catalog).length
          ⟨l0, predsMapOf l0 catalog, []⟩
          (frontierOf (predsMapOf l0 catalog))).2.1.take i).flatten := by
        simpa using horder
      obtain ⟨j, round', hji, hjidx, hpj⟩ := (mem_flatten_take _ _ _).mp horder'
      exact ⟨j, round', hji, hjidx, hpj⟩

end Migrate

namespace Migrate

/-- Witness for `resolve_acyclic_rounds`: the spec's Scenario 1, catalog
`{A:[], B:[A], C:[A], D:[B,C]}` over an empty ledger, with an explicit
topological rank. -/
theorem resolve_acyclic_rounds_witness :
    ((([("A", ["CREATE TABLE a;"]), ("B", ["-- # A"]), ("C", ["-- # A"]),
        ("D", ["-- # B", "-- # C"])] : List (Rev × List String)).map (·.1)).Nodup ∧
     (∀ e ∈ ([("A", ["CREATE TABLE a;"]), ("B", ["-- # A"]), ("C", ["-- # A"]),
        ("D", ["-- # B", "-- # C"])] : List (Rev × List String)),
        (extractPredecessors e.2).Nodup) ∧
     (∀ e ∈ ([("A", ["CREATE TABLE a;"]), ("B", ["-- # A"]), ("C", ["-- # A"]),
        ("D", ["-- # B", "-- # C"])] : List (Rev × List String)),
        e.1 ∉ (⟨[], []⟩ : Ledger).applied →
        ∀ p ∈ extractPredecessors e.2, p ∈ (⟨[], []⟩ : Ledger).applied ∨
          p ∈ ([("A", ["CREATE TABLE a;"]), ("B", ["-- # A"]), ("C", ["-- # A"]),
               ("D", ["-- # B", "-- # C"])] : List (Rev × List String)).map (·.1))) ∧
    ((apply_migrations ⟨[], []⟩
        [("A", ["CREATE TABLE a;"]), ("B", ["-- # A"]), ("C", ["-- # A"]),
         ("D", ["-- # B", "-- # C"])]).status = RunStatus.ok ∧
     (apply_migrations ⟨[], []⟩
        [("A", ["CREATE TABLE a;"]), ("B", ["-- # A"]), ("C", ["-- # A"]),
         ("D", ["-- # B", "-- # C"])]).rounds.flatten.Nodup ∧
     (∀ e ∈ ([("A", ["CREATE TABLE a;"]), ("B", ["-- # A"]), ("C", ["-- # A"]),
        ("D", ["-- # B", "-- # C"])] : List (Rev × List String)),
        e.1 ∉ (⟨[], []⟩ : Ledger).applied →
        ∃ (i : Nat) (round : List Rev),
          (apply_migrations ⟨[], []⟩
            [("A", ["CREATE TABLE a;"]), ("B", ["-- # A"]), ("C", ["-- # A"]),
             ("D", ["-- # B", "-- # C"])]).rounds[i]? = some round ∧ e.1 ∈ round) ∧
     (∀ (i : Nat) (round : List Rev),
        (apply_migrations ⟨[], []⟩
          [("A", ["CREATE TABLE a;"]), ("B", ["-- # A"]), ("C", ["-- # A"]),
           ("D", ["-- # B", "-- # C"])]).rounds[i]? = some round →
        ∀ r ∈ round,
        ∀ e ∈ ([("A", ["CREATE TABLE a;"]), ("B", ["-- # A"]), ("C", ["-- # A"]),
           ("D", ["-- # B", "-- # C"])] : List (Rev × List String)), e.1 = r →
        ∀ p ∈ extractPredecessors e.2, p ∉ (⟨[], []⟩ : Ledger).applied →
        ∃ (j : Nat) (round' : List Rev), j < i ∧
          (apply_migrations ⟨[], []⟩
            [("A", ["CREATE TABLE a;"]), ("B", ["-- # A"]), ("C", ["-- # A"]),
             ("D", ["-- # B", "-- # C"])]).rounds[j]? = some round' ∧ p ∈ round')) :=
  ⟨⟨by decide, by decide, by decide⟩,
   resolve_acyclic_rounds ⟨[], []⟩
     [("A", ["CREATE TABLE a;"]), ("B", ["-- # A"]), ("C", ["-- # A"]),
      ("D", ["-- # B", "-- # C"])]
     (fun r => if r = "A" then 0 else if r = "D" then 2 else 1)
     (by decide) (by decide) (by decide) (by decide)⟩

/-! ## The silent-skip behaviour caused by duplicated predecessor markers -/

/-- A revision cannot have been committed while one of its initially
outstanding predecessors never was: the recorded execution order shows its
outstanding list could not have emptied. -/
theorem not_executed_of_blocked {A0 : List Rev} {E0 : List (Rev × Rev)}
    {P0 : List (Rev × PredInfo)} {st : St}
    (hInv : ApplyInv A0 E0 P0 st) {r p : Rev}
    (hp : p ∈ (lookupPreds P0 r).outstanding)
    (hpnot : p ∉ st.executed) : r ∉ st.executed := by
  intro hr
  obtain ⟨l1, l2, hsplit⟩ := List.append_of_mem hr
  have hord := hInv.exec_order l1 r l2 hsplit p
  have hpos : 0 < ((lookupPreds P0 r).outstanding).count p := List.count_pos_iff.mpr hp
  have hl1 : l1.count p = 0 := by
    refine List.count_eq_zero_of_not_mem ?_
    intro hm
    exact hpnot (by rw [hsplit]; exact List.mem_append.mpr (Or.inl hm))
  omega

/-- A revision whose initial outstanding list contains some identifier twice is
never committed: each application of that identifier removes only one
occurrence, and no identifier is committed twice. -/
theorem not_executed_of_dup {A0 : List Rev} {E0 : List (Rev × Rev)}
    {P0 : List (Rev × PredInfo)} {st : St}
    (hInv : ApplyInv A0 E0 P0 st) {b a : Rev}
    (hcnt : 2 ≤ ((lookupPreds P0 b).outstanding).count a) : b ∉ st.executed := by
  intro hb
  obtain ⟨l1, l2, hsplit⟩ := List.append_of_mem hb
  have hord := hInv.exec_order l1 b l2 hsplit a
  have hle1 : st.executed.count a ≤ 1 :=
    List.nodup_iff_count_le_one.mp hInv.done_nodup a
  have hl1 : l1.count a ≤ st.executed.count a := by
    rw [hsplit, List.count_append]
    omega
  omega

/-- Transitive dependence between pending revisions through the outstanding
declared predecessors recorded in the initial `revision_to_predecessors`
dict. -/
inductive DependsVia (P0 : List (Rev × PredInfo)) : Rev → Rev → Prop
  | direct {r p : Rev} : p ∈ (lookupPreds P0 r).outstanding → DependsVia P0 r p
  | step {r q p : Rev} : q ∈ (lookupPreds P0 r).outstanding → DependsVia P0 q p →
      DependsVia P0 r p

/-- Nothing transitively depending on a never-committed revision is ever
committed. -/
theorem not_executed_of_depends {A0 : List Rev} {E0 : List (Rev × Rev)}
    {P0 : List (Rev × PredInfo)} {st : St}
    (hInv : ApplyInv A0 E0 P0 st) :
    ∀ r b : Rev, DependsVia P0 r b → b ∉ st.executed → r ∉ st.executed := by
  intro r b hdep
  induction hdep with
  | direct h => intro hb; exact not_executed_of_blocked hInv h hb
  | step hq _ ih => intro hb; exact not_executed_of_blocked hInv hq (ih hb)

end Migrate

namespace Migrate

/-- Final state of a failure-free run in the main case (pending nonempty,
initial frontier nonempty): the run reports success and its observable fields
come from a state satisfying the loop invariant. -/
theorem apply_migrations_final (l0 : Ledger) (catalog : List (Rev × List String))
    (hcat : (catalog.map (·.1)).Nodup)
    (hpe : ¬(pendingOf l0 catalog).isEmpty = true)
    (hfe : ¬(frontierOf (predsMapOf l0 catalog)).isEmpty = true) :
    ∃ stf : St,
      ApplyInv l0.applied l0.edges (predsMapOf l0 catalog) stf ∧
      (apply_migrations l0 catalog).status = RunStatus.ok ∧
      (apply_migrations l0 catalog).ledger = stf.ledger ∧
      (apply_migrations l0 catalog).executed = stf.executed := by
  have hrun : apply_migrations l0 catalog =
      ⟨if (applyLoopF (fun _ => false) (pendingOf l0 catalog).length
            ⟨l0, predsMapOf l0 catalog, []⟩
            (frontierOf (predsMapOf l0 catalog))).2.2 then RunStatus.scriptError
        else RunStatus.ok,
       (applyLoopF (fun _ => false) (pendingOf l0 catalog).length
            ⟨l0, predsMapOf l0 catalog, []⟩
            (frontierOf (predsMapOf l0 catalog))).1.ledger,
       (applyLoopF (fun _ => false) (pendingOf l0 catalog).length
            ⟨l0, predsMapOf l0 catalog, []⟩
            (frontierOf (predsMapOf l0 catalog))).1.executed,
       (applyLoopF (fun _ => false) (pendingOf l0 catalog).length
            ⟨l0, predsMapOf l0 catalog, []⟩
            (frontierOf (predsMapOf l0 catalog))).2.1⟩ := by
    unfold apply_migrations
    exact apply_migrationsF_run _ l0 catalog hpe hfe
  have hnd0 : ((predsMapOf l0 catalog).map (·.1)).Nodup := by
    rw [predsMapOf_keys]
    exact pendingOf_keys_nodup hcat
  have hInv0 : ApplyInv l0.applied l0.edges (predsMapOf l0 catalog)
      ⟨l0, predsMapOf l0 catalog, []⟩ := applyInv_init hnd0
  obtain ⟨hInvF, -, -⟩ :=
    applyLoopF_inv (fun _ => false)
      (pendingOf l0 catalog).length ⟨l0, predsMapOf l0 catalog, []⟩
      (frontierOf (predsMapOf l0 catalog)) hInv0 rfl
  have hflag : (applyLoopF (fun _ => false) (pendingOf l0 catalog).length
      ⟨l0, predsMapOf l0 catalog, []⟩
      (frontierOf (predsMapOf l0 catalog))).2.2 = false :=
    applyLoopF_noFail _ _ _
  refine ⟨(applyLoopF (fun _ => false) (pendingOf l0 catalog).length
      ⟨l0, predsMapOf l0 catalog, []⟩
      (frontierOf (predsMapOf l0 catalog))).1, hInvF, ?_, ?_, ?_⟩
  · rw [hrun]
    simp [hflag]
  · rw [hrun]
  · rw [hrun]

end Migrate

namespace Migrate

/-- Claim C10: a pending migration `B` whose forward script carries the same
predecessor marker line twice naming a pending identifier `A` is silently
skipped: provided the run starts at all (the once-only eligibility check of
lines 169-176 passes), `apply_migrations` terminates reporting overall
success, while `B` — and everything transitively depending on it — is left
unapplied and unreported: each application of `A` removes only one of the two
outstanding entries, so `B` never becomes eligible and the loop exits
silently. -/
theorem apply_duplicate_marker_stuck (l0 : Ledger)
    (catalog : List (Rev × List String)) (B A : Rev) (lines : List String)
    (hcat : (catalog.map (·.1)).Nodup)
    (hB : (B, lines) ∈ catalog)
    (hBpend : B ∉ l0.applied)
    (hA : A ∈ catalog.map (·.1))
    (hApend : A ∉ l0.applied)
    (hdup : 2 ≤ (extractPredecessors lines).count A)
    (hfr : frontierOf (predsMapOf l0 catalog) ≠ []) :
    (apply_migrations l0 catalog).status = RunStatus.ok ∧
    B ∉ (apply_migrations l0 catalog).executed ∧
    B ∉ (apply_migrations l0 catalog).ledger.applied ∧
    (∀ r : Rev, DependsVia (predsMapOf l0 catalog) r B →
       r ∉ (apply_migrations l0 catalog).executed) := by
  have hpe : ¬(pendingOf l0 catalog).isEmpty = true := by
    intro h
    have hmem : ((B, lines) : Rev × List String) ∈ pendingOf l0 catalog :=
      mem_pendingOf.mpr ⟨hB, hBpend⟩
    rw [List.isEmpty_iff.mp h] at hmem
    exact absurd hmem (List.not_mem_nil _)
  have hfe : ¬(frontierOf (predsMapOf l0 catalog)).isEmpty = true :=
    fun h => hfr (List.isEmpty_iff.mp h)
  obtain ⟨stf, hInvF, hstat, hled, hexe⟩ :=
    apply_migrations_final l0 catalog hcat hpe hfe
  have hlook : lookupPreds (predsMapOf l0 catalog) B = mkPredInfo l0.applied lines :=
    lookupPreds_predsMapOf hcat hB hBpend
  have hcnt2 : 2 ≤ ((lookupPreds (predsMapOf l0 catalog) B).outstanding).count A := by
    rw [hlook]
    unfold mkPredInfo
    simp only
    rw [List.count_filter (by simp [hApend])]
    exact hdup
  have hBnot : B ∉ stf.executed := not_executed_of_dup hInvF hcnt2
  refine ⟨hstat, ?_, ?_, ?_⟩
  · rw [hexe]
    exact hBnot
  · rw [hled, hInvF.ledger_applied, List.mem_append]
    rintro (h | h)
    · exact hBpend h
    · exact hBnot h
  · intro r hdep
    rw [hexe]
    exact not_executed_of_depends hInvF r B hdep hBnot

/-- Witness for `apply_duplicate_marker_stuck`: catalog
`{A : no predecessors, B : marker line for A written twice}` over an empty
ledger.  The run applies A, reports success and leaves B unapplied. -/
theorem apply_duplicate_marker_stuck_witness :
    ((([("A", []), ("B", ["-- # A", "-- # A"])] : List (Rev × List String)).map
        (·.1)).Nodup ∧
     (("B", ["-- # A", "-- # A"]) : Rev × List String)
        ∈ ([("A", []), ("B", ["-- # A", "-- # A"])] : List (Rev × List String)) ∧
     "B" ∉ (⟨[], []⟩ : Ledger).applied ∧
     "A" ∉ (⟨[], []⟩ : Ledger).applied ∧
     2 ≤ (extractPredecessors ["-- # A", "-- # A"]).count "A" ∧
     frontierOf (predsMapOf ⟨[], []⟩ [("A", []), ("B", ["-- # A", "-- # A"])]) ≠ []) ∧
    ((apply_migrations ⟨[], []⟩
        [("A", []), ("B", ["-- # A", "-- # A"])]).status = RunStatus.ok ∧
     "B" ∉ (apply_migrations ⟨[], []⟩
        [("A", []), ("B", ["-- # A", "-- # A"])]).executed ∧
     "B" ∉ (apply_migrations ⟨[], []⟩
        [("A", []), ("B", ["-- # A", "-- # A"])]).ledger.applied ∧
     (∀ r : Rev, DependsVia (predsMapOf ⟨[], []⟩
          [("A", []), ("B", ["-- # A", "-- # A"])]) r "B" →
        r ∉ (apply_migrations ⟨[], []⟩
          [("A", []), ("B", ["-- # A", "-- # A"])]).executed)) :=
  ⟨⟨by decide, by decide, by decide, by decide, by decide, by decide⟩,
   apply_duplicate_marker_stuck ⟨[], []⟩ [("A", []), ("B", ["-- # A", "-- # A"])]
     "B" "A" ["-- # A", "-- # A"]
     (by decide) (by decide) (by decide) (by decide) (by decide) (by decide)
     (by decide)⟩

end Migrate

namespace Migrate

/-- The declared predecessors a catalog records for a revision (the list the
apply phase inserts one `dependent_revision` row for). -/
def catalogPreds (catalog : List (Rev × List String)) (r : Rev) : List Rev :=
  extractPredecessors (((catalog.find? (fun e => e.1 == r)).map (·.2)).getD [])

theorem catalogPreds_eq {catalog : List (Rev × List String)}
    (hcat : (catalog.map (·.1)).Nodup) {e : Rev × List String} (he : e ∈ catalog) :
    catalogPreds catalog e.1 = extractPredecessors e.2 := by
  unfold catalogPreds
  rw [find?_eq_of_mem_nodup hcat he]
  rfl

/-- For a committed pending revision, the dict's declared-predecessor list is
the catalog's. -/
theorem lookupPreds_allPreds_eq_catalogPreds {l0 : Ledger}
    {catalog : List (Rev × List String)} (hcat : (catalog.map (·.1)).Nodup)
    {r : Rev} (hr : r ∈ (predsMapOf l0 catalog).map (·.1)) :
    (lookupPreds (predsMapOf l0 catalog) r).allPreds = catalogPreds catalog r := by
  rw [predsMapOf_keys] at hr
  obtain ⟨hck, hcp⟩ := mem_pending_keys.mp hr
  obtain ⟨e, he, her⟩ := List.mem_map.mp hck
  rw [← her, lookupPreds_predsMapOf hcat he (her ▸ hcp), mkPredInfo_allPreds,
    catalogPreds_eq hcat he]

/-- Claim C3: every migration the apply phase commits does so as one atomic
per-migration transaction: the final `revision` table is the initial one
followed by exactly one row per committed migration (none committed twice),
the final `dependent_revision` table is the initial one followed by exactly
one row per declared predecessor of each committed migration, every committed
migration's transaction succeeded (a failing transaction commits nothing), and
transactions committed earlier in the run remain committed — the initial rows
and all committed rows persist, with no global rollback. -/
theorem apply_transaction_atomicity (fails : Rev → Bool) (l0 : Ledger)
    (catalog : List (Rev × List String))
    (hcat : (catalog.map (·.1)).Nodup) :
    (apply_migrationsF fails l0 catalog).executed.Nodup ∧
    (apply_migrationsF fails l0 catalog).ledger.applied
      = l0.applied ++ (apply_migrationsF fails l0 catalog).executed ∧
    (apply_migrationsF fails l0 catalog).ledger.edges
      = l0.edges ++ (apply_migrationsF fails l0 catalog).executed.flatMap
          (fun r => (catalogPreds catalog r).map (fun p => (p, r))) ∧
    (∀ r ∈ (apply_migrationsF fails l0 catalog).executed, fails r = false) ∧
    (∀ r ∈ (apply_migrationsF fails l0 catalog).executed,
       r ∈ catalog.map (·.1) ∧ r ∉ l0.applied) := by
  by_cases hpe : (pendingOf l0 catalog).isEmpty = true
  · have hout : apply_migrationsF fails l0 catalog = ⟨.ok, l0, [], []⟩ := by
      unfold apply_migrationsF
      rw [if_pos hpe]
    rw [hout]
    refine ⟨by simp, by simp, by simp, ?_, ?_⟩ <;>
      exact fun r hr => absurd hr (List.not_mem_nil r)
  · by_cases hfe : (frontierOf (predsMapOf l0 catalog)).isEmpty = true
    · have hout : apply_migrationsF fails l0 catalog = ⟨.graphError, l0, [], []⟩ := by
        unfold apply_migrationsF
        rw [if_neg hpe, if_pos hfe]
      rw [hout]
      refine ⟨by simp, by simp, by simp, ?_, ?_⟩ <;>
        exact fun r hr => absurd hr (List.not_mem_nil r)
    · have hrun := apply_migrationsF_run fails l0 catalog hpe hfe
      have hnd0 : ((predsMapOf l0 catalog).map (·.1)).Nodup := by
        rw [predsMapOf_keys]
        exact pendingOf_keys_nodup hcat
      have hInv0 : ApplyInv l0.applied l0.edges (predsMapOf l0 catalog)
          ⟨l0, predsMapOf l0 catalog, []⟩ := applyInv_init hnd0
      obtain ⟨hInvF, hexecor, -⟩ :=
        applyLoopF_inv fails
          (pendingOf l0 catalog).length ⟨l0, predsMapOf l0 catalog, []⟩
          (frontierOf (predsMapOf l0 catalog)) hInv0 rfl
      rw [hrun]
      have hdonekeys : ∀ r ∈ (applyLoopF fails (pendingOf l0 catalog).length
          ⟨l0, predsMapOf l0 catalog, []⟩
          (frontierOf (predsMapOf l0 catalog))).1.executed,
          r ∈ (predsMapOf l0 catalog).map (·.1) := hInvF.done_mem
      refine ⟨hInvF.done_nodup, hInvF.ledger_applied, ?_, ?_, ?_⟩
      · rw [hInvF.ledger_edges]
        congr 1
        rw [List.flatMap_def, List.flatMap_def]
        congr 1
        refine List.map_congr_left ?_
        intro r hr
        rw [lookupPreds_allPreds_eq_catalogPreds hcat (hdonekeys r hr)]
      · intro r hr
        rcases hexecor r hr with h | h
        · exact absurd h (List.not_mem_nil r)
        · exact h
      · intro r hr
        have := hdonekeys r hr
        rw [predsMapOf_keys] at this
        exact mem_pending_keys.mp this

end Migrate

namespace Migrate

/-- Witness for `apply_transaction_atomicity`: catalog `{A:[], B:[A]}` over an
empty ledger, with B's transaction failing.  A's transaction, committed
earlier in the run, remains committed; B contributes no row at all; the run
ends with the script error. -/
theorem apply_transaction_atomicity_witness :
    ((([("A", []), ("B", ["-- # A"])] : List (Rev × List String)).map (·.1)).Nodup ∧
     (apply_migrationsF (fun r => r == "B") ⟨[], []⟩
        [("A", []), ("B", ["-- # A"])]).status = RunStatus.scriptError) ∧
    ((apply_migrationsF (fun r => r == "B") ⟨[], []⟩
        [("A", []), ("B", ["-- # A"])]).executed.Nodup ∧
     (apply_migrationsF (fun r => r == "B") ⟨[], []⟩
        [("A", []), ("B", ["-- # A"])]).ledger.applied
       = (⟨[], []⟩ : Ledger).applied ++ (apply_migrationsF (fun r => r == "B") ⟨[], []⟩
        [("A", []), ("B", ["-- # A"])]).executed ∧
     (apply_migrationsF (fun r => r == "B") ⟨[], []⟩
        [("A", []), ("B", ["-- # A"])]).ledger.edges
       = (⟨[], []⟩ : Ledger).edges ++ (apply_migrationsF (fun r => r == "B") ⟨[], []⟩
        [("A", []), ("B", ["-- # A"])]).executed.flatMap
           (fun r => (catalogPreds [("A", []), ("B", ["-- # A"])] r).map
             (fun p => (p, r))) ∧
     (∀ r ∈ (apply_migrationsF (fun r => r == "B") ⟨[], []⟩
        [("A", []), ("B", ["-- # A"])]).executed, (r == "B") = false) ∧
     (∀ r ∈ (apply_migrationsF (fun r => r == "B") ⟨[], []⟩
        [("A", []), ("B", ["-- # A"])]).executed,
        r ∈ ([("A", []), ("B", ["-- # A"])] : List (Rev × List String)).map (·.1) ∧
        r ∉ (⟨[], []⟩ : Ledger).applied)) :=
  ⟨⟨by decide, by decide⟩,
   apply_transaction_atomicity (fun r => r == "B") ⟨[], []⟩
     [("A", []), ("B", ["-- # A"])] (by decide)⟩

/-! ## The once-only cycle check of `apply_migrations` -/

/-- Counterexample to claim C1 as stated: this catalog's declared-predecessor
graph is cyclic — E's forward script names F as predecessor and F's names E —
yet `apply_migrations` over an empty ledger does not return the
unresolvable-graph error: the independent migration A passes the once-only
eligibility check, its forward script is executed and committed, and the run
terminates reporting success with the cyclic pair silently left unapplied.
The ledger is not left unchanged and a migration script has been executed. -/
theorem apply_cyclic_counterexample :
    "F" ∈ extractPredecessors ["-- # F"] ∧
    "E" ∈ extractPredecessors ["-- # E"] ∧
    apply_migrations ⟨[], []⟩ [("A", []), ("E", ["-- # F"]), ("F", ["-- # E"])]
      = ⟨RunStatus.ok, ⟨["A"], []⟩, ["A"], [["A"]]⟩ := by
  refine ⟨by decide, by decide, by decide⟩

/-- Claim C1 (amended): the cycle check fires exactly when it is reached with
an empty initial frontier: whenever some migration is pending and every
pending migration has at least one declared predecessor outside the applied
set — as with a self-predecessor, or a mutual two-cycle when the cyclic
migrations are the only pending ones — `apply_migrations` exits with the
unresolvable-graph error before any script execution, leaving the ledger
completely unchanged and executing nothing. -/
theorem apply_empty_frontier_error (l0 : Ledger) (catalog : List (Rev × List String))
    (hpend : pendingOf l0 catalog ≠ [])
    (hblocked : ∀ e ∈ catalog, e.1 ∉ l0.applied →
      ∃ p ∈ extractPredecessors e.2, p ∉ l0.applied) :
    apply_migrations l0 catalog = ⟨RunStatus.graphError, l0, [], []⟩ := by
  have hpe : ¬(pendingOf l0 catalog).isEmpty = true :=
    fun h => hpend (List.isEmpty_iff.mp h)
  have hfr : frontierOf (predsMapOf l0 catalog) = [] := by
    unfold frontierOf
    rw [List.map_eq_nil_iff, List.filter_eq_nil_iff]
    intro e' he'
    obtain ⟨e, he, hee⟩ := List.mem_map.mp he'
    obtain ⟨hec, hep⟩ := mem_pendingOf.mp he
    obtain ⟨p, hpx, hpa⟩ := hblocked e hec hep
    have hpmem : p ∈ e'.2.outstanding := by
      rw [← hee]
      exact mem_mkPredInfo_outstanding.mpr ⟨hpx, hpa⟩
    simp only [List.isEmpty_iff]
    intro hnil
    rw [hnil] at hpmem
    exact absurd hpmem (List.not_mem_nil p)
  unfold apply_migrations apply_migrationsF
  rw [if_neg hpe, if_pos (by rw [hfr]; rfl)]

/-- Witness for `apply_empty_frontier_error`: the spec's Scenario 3 — catalog
`{E:[F], F:[E]}`, empty ledger — errors out with the ledger untouched and no
script executed. -/
theorem apply_empty_frontier_error_witness :
    (pendingOf ⟨[], []⟩ [("E", ["-- # F"]), ("F", ["-- # E"])] ≠ [] ∧
     (∀ e ∈ ([("E", ["-- # F"]), ("F", ["-- # E"])] : List (Rev × List String)),
        e.1 ∉ (⟨[], []⟩ : Ledger).applied →
        ∃ p ∈ extractPredecessors e.2, p ∉ (⟨[], []⟩ : Ledger).applied)) ∧
    apply_migrations ⟨[], []⟩ [("E", ["-- # F"]), ("F", ["-- # E"])]
      = ⟨RunStatus.graphError, ⟨[], []⟩, [], []⟩ :=
  ⟨⟨by decide, by decide⟩,
   apply_empty_frontier_error ⟨[], []⟩ [("E", ["-- # F"]), ("F", ["-- # E"])]
     (by decide) (by decide)⟩

/-! ## Absence of the ledger-catalog consistency check -/

/-- Counterexample to claim C7 as stated: the ledger records the applied
revision Z although no catalog file defines it; `apply_migrations` raises no
inconsistency error — the guard in lines 145-147 silently skips Z, the pending
migration A is applied, and the run reports success. -/
theorem apply_ledger_inconsistency_ignored :
    "Z" ∈ (⟨["Z"], []⟩ : Ledger).applied ∧
    "Z" ∉ ([("A", [])] : List (Rev × List String)).map (·.1) ∧
    apply_migrations ⟨["Z"], []⟩ [("A", [])]
      = ⟨RunStatus.ok, ⟨["Z", "A"], []⟩, ["A"], [["A"]]⟩ := by
  refine ⟨by decide, by decide, by decide⟩

/-- Claim C7 (amended): `apply_migrations` performs no ledger-catalog
consistency check.  Even when the ledger holds an applied identifier absent
from the catalog, the run's only error exit remains the unresolvable-graph
check: the status is `graphError` exactly when revisions are pending and none
of them has all predecessors applied, and there is no other failure. -/
theorem apply_only_graph_error (l0 : Ledger) (catalog : List (Rev × List String))
    (Z : Rev) (hz : Z ∈ l0.applied) (hzc : Z ∉ catalog.map (·.1)) :
    ((apply_migrations l0 catalog).status = RunStatus.graphError ↔
      (pendingOf l0 catalog ≠ [] ∧ frontierOf (predsMapOf l0 catalog) = [])) ∧
    (apply_migrations l0 catalog).status ≠ RunStatus.scriptError := by
  by_cases hpe : (pendingOf l0 catalog).isEmpty = true
  · have hout : apply_migrations l0 catalog = ⟨.ok, l0, [], []⟩ := by
      unfold apply_migrations apply_migrationsF
      rw [if_pos hpe]
    rw [hout]
    refine ⟨?_, by simp⟩
    simp only
    constructor
    · intro h
      exact absurd h (by simp)
    · rintro ⟨h1, -⟩
      exact absurd (List.isEmpty_iff.mp hpe) h1
  · by_cases hfe : (frontierOf (predsMapOf l0 catalog)).isEmpty = true
    · have hout : apply_migrations l0 catalog = ⟨.graphError, l0, [], []⟩ := by
        unfold apply_migrations apply_migrationsF
        rw [if_neg hpe, if_pos hfe]
      rw [hout]
      refine ⟨?_, by simp⟩
      simp only
      constructor
      · intro _
        exact ⟨fun h => hpe (by rw [h]; rfl), List.isEmpty_iff.mp hfe⟩
      · intro _
        trivial
    · have hrun := apply_migrationsF_run (fun _ => false) l0 catalog hpe hfe
      have hflag := applyLoopF_noFail (pendingOf l0 catalog).length
        ⟨l0, predsMapOf l0 catalog, []⟩ (frontierOf (predsMapOf l0 catalog))
      have hstat : (apply_migrations l0 catalog).status = RunStatus.ok := by
        unfold apply_migrations
        rw [hrun]
        simp [hflag]
      rw [hstat]
      refine ⟨?_, by simp⟩
      constructor
      · intro h
        exact absurd h (by simp)
      · rintro ⟨-, h2⟩
        exact absurd h2 (fun hh => hfe (by rw [hh] at hfe ⊢; rfl))

end Migrate

namespace Migrate

/-! ## Rollback: basic equations and monotonicity -/

theorem remove_list_nil (fuel : Nat) (l : Ledger) :
    remove_list fuel [] l = some ⟨l, [], []⟩ := by
  cases fuel <;> rfl

theorem remove_list_zero_cons (rev : Rev) (rest : List Rev) (l : Ledger) :
    remove_list 0 (rev :: rest) l = none := rfl

theorem remove_list_succ_cons (fuel : Nat) (rev : Rev) (rest : List Rev) (l : Ledger) :
    remove_list (fuel+1) (rev :: rest) l =
      match remove_list fuel (dependentsOf l rev) l with
      | none => none
      | some r =>
        match remove_list fuel rest
            ⟨r.ledger.applied.filter (fun a => !(a == rev)),
             r.ledger.edges.filter (fun e => !(e.2 == rev))⟩ with
        | none => none
        | some r2 =>
          some ⟨r2.ledger, (r.undone ++ [rev]) ++ r2.undone,
                (r.trace ++ [⟨r.ledger.applied.filter (fun a => !(a == rev)),
                  r.ledger.edges.filter (fun e => !(e.2 == rev))⟩]) ++ r2.trace⟩ := rfl

/-- Rollback only ever deletes rows: the resulting tables are sublists of the
starting ones. -/
theorem remove_list_sublist : ∀ (fuel : Nat) (ts : List Rev) (l : Ledger)
    (res : RbResult), remove_list fuel ts l = some res →
    res.ledger.applied.Sublist l.applied ∧ res.ledger.edges.Sublist l.edges := by
  intro fuel
  induction fuel with
  | zero =>
    intro ts l res h
    cases ts with
    | nil =>
      rw [remove_list_nil] at h
      obtain rfl := Option.some.inj h
      exact ⟨List.Sublist.refl _, List.Sublist.refl _⟩
    | cons rev rest => exact Option.noConfusion h
  | succ fuel ih =>
    intro ts l res h
    cases ts with
    | nil =>
      rw [remove_list_nil] at h
      obtain rfl := Option.some.inj h
      exact ⟨List.Sublist.refl _, List.Sublist.refl _⟩
    | cons rev rest =>
      rw [remove_list_succ_cons] at h
      split at h
      · exact Option.noConfusion h
      · rename_i r1 h1
        split at h
        · exact Option.noConfusion h
        · rename_i r2 h2
          obtain rfl := Option.some.inj h
          obtain ⟨s1a, s1e⟩ := ih _ _ _ h1
          obtain ⟨s2a, s2e⟩ := ih _ _ _ h2
          simp only
          constructor
          · exact s2a.trans ((List.filter_sublist _).trans s1a)
          · exact s2e.trans ((List.filter_sublist _).trans s1e)

end Migrate

namespace Migrate

/-- Structure of the ledger across a cascading removal, relative to a split of
the tables into old rows (`A0`, `E0`) that none of the targets may touch, and
removable rows: the old rows survive untouched, rows are only ever deleted,
every target ends up absent from the `revision` rows, and no remaining edge
has a target on either side. -/
theorem rb_shape (A0 : List Rev) (E0 : List (Rev × Rev))
    (hE0 : ∀ e ∈ E0, e.1 ∈ A0 ∧ e.2 ∈ A0) :
    ∀ (fuel : Nat) (ts : List Rev) (l : Ledger) (rA : List Rev)
      (rE : List (Rev × Rev)) (res : RbResult),
    l.applied = A0 ++ rA →
    l.edges = E0 ++ rE →
    (∀ t ∈ ts, t ∉ A0) →
    (∀ e ∈ rE, e.2 ∉ A0) →
    remove_list fuel ts l = some res →
    ∃ rA' rE',
      res.ledger.applied = A0 ++ rA' ∧
      res.ledger.edges = E0 ++ rE' ∧
      rA'.Sublist rA ∧ rE'.Sublist rE ∧
      (∀ t ∈ ts, t ∉ rA') ∧
      (∀ t ∈ ts, ∀ e ∈ rE', e.1 ≠ t ∧ e.2 ≠ t) := by
  intro fuel
  induction fuel with
  | zero =>
    intro ts l rA rE res hla hle hts hrE h
    cases ts with
    | nil =>
      rw [remove_list_nil] at h
      obtain rfl := Option.some.inj h
      exact ⟨rA, rE, hla, hle, List.Sublist.refl _, List.Sublist.refl _, by simp, by simp⟩
    | cons rev rest => exact Option.noConfusion h
  | succ fuel ih =>
    intro ts l rA rE res hla hle hts hrE h
    cases ts with
    | nil =>
      rw [remove_list_nil] at h
      obtain rfl := Option.some.inj h
      exact ⟨rA, rE, hla, hle, List.Sublist.refl _, List.Sublist.refl _, by simp, by simp⟩
    | cons rev rest =>
      rw [remove_list_succ_cons] at h
      split at h
      · exact Option.noConfusion h
      · rename_i r1 h1
        split at h
        · exact Option.noConfusion h
        · rename_i r2 h2
          obtain rfl := Option.some.inj h
          have hrevA0 : rev ∉ A0 := hts rev (List.mem_cons_self _ _)
          have hds : ∀ d ∈ dependentsOf l rev, d ∉ A0 := by
            intro d hd
            obtain ⟨e, he, hed⟩ := List.mem_map.mp hd
            obtain ⟨hel, herev⟩ := List.mem_filter.mp he
            have herev' : e.1 = rev := by simpa using herev
            rw [hle, List.mem_append] at hel
            rcases hel with hel | hel
            · exact absurd (herev' ▸ (hE0 e hel).1) hrevA0
            · exact hed ▸ hrE e hel
          obtain ⟨rA1, rE1, h1a, h1e, s1a, s1e, hts1, hcl1⟩ :=
            ih (dependentsOf l rev) l rA rE r1 hla hle hds hrE h1
          have hnopar : ∀ e ∈ rE1, e.1 ≠ rev := by
            intro e he heq
            have herE : e ∈ rE := s1e.subset he
            have hel : e ∈ l.edges := by
              rw [hle, List.mem_append]
              exact Or.inr herE
            have hd : e.2 ∈ dependentsOf l rev := by
              unfold dependentsOf
              exact List.mem_map.mpr ⟨e, List.mem_filter.mpr ⟨hel, by simp [heq]⟩, rfl⟩
            exact (hcl1 e.2 hd e he).2 rfl
          have h2a : r1.ledger.applied.filter (fun a => !(a == rev))
              = A0 ++ rA1.filter (fun a => !(a == rev)) := by
            rw [h1a, List.filter_append]
            congr 1
            rw [List.filter_eq_self]
            intro a ha
            simp only [Bool.not_eq_true', beq_eq_false_iff_ne, ne_eq]
            intro hEq
            exact hrevA0 (hEq ▸ ha)
          have h2e : r1.ledger.edges.filter (fun e => !(e.2 == rev))
              = E0 ++ rE1.filter (fun e => !(e.2 == rev)) := by
            rw [h1e, List.filter_append]
            congr 1
            rw [List.filter_eq_self]
            intro e he
            simp only [Bool.not_eq_true', beq_eq_false_iff_ne, ne_eq]
            intro hEq
            exact hrevA0 (hEq ▸ (hE0 e he).2)
          have hts2 : ∀ t ∈ rest, t ∉ A0 := fun t ht => hts t (List.mem_cons_of_mem _ ht)
          have hrE2 : ∀ e ∈ rE1.filter (fun e => !(e.2 == rev)), e.2 ∉ A0 := by
            intro e he
            exact hrE e (s1e.subset (List.mem_of_mem_filter he))
          obtain ⟨rA', rE', h3a, h3e, s3a, s3e, hts3, hcl3⟩ :=
            ih rest _ (rA1.filter (fun a => !(a == rev)))
              (rE1.filter (fun e => !(e.2 == rev))) r2 h2a h2e hts2 hrE2 h2
          refine ⟨rA', rE', h3a, h3e, ?_, ?_, ?_, ?_⟩
          · exact s3a.trans ((List.filter_sublist _).trans s1a)
          · exact s3e.trans ((List.filter_sublist _).trans s1e)
          · intro t ht
            rcases List.mem_cons.mp ht with rfl | ht'
            · intro hmem
              have hm := s3a.subset hmem
              rw [List.mem_filter] at hm
              simp at hm
            · exact hts3 t ht'
          · intro t ht e he
            rcases List.mem_cons.mp ht with rfl | ht'
            · constructor
              · intro heq
                have he1 : e ∈ rE1.filter (fun e => !(e.2 == t)) := s3e.subset he
                exact hnopar e (List.mem_of_mem_filter he1) heq
              · intro heq
                have he1 := s3e.subset he
                rw [List.mem_filter] at he1
                rw [heq] at he1
                simp at he1
            · exact hcl3 t ht' e he

end Migrate

namespace Migrate

/-- Every intermediate ledger committed during a cascading removal of targets
from a consistent ledger is itself consistent: no transaction ever leaves a
dangling edge (an edge whose parent or dependent `revision` row is gone). -/
theorem rb_trace : ∀ (fuel : Nat) (ts : List Rev) (l : Ledger) (res : RbResult),
    Consistent l →
    remove_list fuel ts l = some res →
    Consistent res.ledger ∧ ∀ l' ∈ res.trace, Consistent l' := by
  intro fuel
  induction fuel with
  | zero =>
    intro ts l res hcons h
    cases ts with
    | nil =>
      rw [remove_list_nil] at h
      obtain rfl := Option.some.inj h
      exact ⟨hcons, by simp⟩
    | cons rev rest => exact Option.noConfusion h
  | succ fuel ih =>
    intro ts l res hcons h
    cases ts with
    | nil =>
      rw [remove_list_nil] at h
      obtain rfl := Option.some.inj h
      exact ⟨hcons, by simp⟩
    | cons rev rest =>
      rw [remove_list_succ_cons] at h
      split at h
      · exact Option.noConfusion h
      · rename_i r1 h1
        split at h
        · exact Option.noConfusion h
        · rename_i r2 h2
          obtain rfl := Option.some.inj h
          obtain ⟨hcons1, htr1⟩ := ih _ _ _ hcons h1
          -- shape of the dependents pass, with no old rows protected
          obtain ⟨rA1, rE1, h1a, h1e, -, s1e, -, hcl1⟩ :=
            rb_shape [] [] (by simp) fuel (dependentsOf l rev) l l.applied l.edges r1
              (by simp) (by simp) (by simp) (by simp) h1
          -- no edge with parent rev survives the dependents pass
          have hnopar : ∀ e ∈ r1.ledger.edges, e.1 ≠ rev := by
            intro e he heq
            have he1 : e ∈ rE1 := by
              have := h1e
              simp only [List.nil_append] at this
              rw [← this]
              exact he
            have hel : e ∈ l.edges := s1e.subset he1
            have hd : e.2 ∈ dependentsOf l rev := by
              unfold dependentsOf
              exact List.mem_map.mpr ⟨e, List.mem_filter.mpr ⟨hel, by simp [heq]⟩, rfl⟩
            exact (hcl1 e.2 hd e he1).2 rfl
          -- the committed transaction state is consistent
          have hcons2 : Consistent ⟨r1.ledger.applied.filter (fun a => !(a == rev)),
              r1.ledger.edges.filter (fun e => !(e.2 == rev))⟩ := by
            intro e he
            simp only at he
            obtain ⟨hel, hcond⟩ := List.mem_filter.mp he
            have hne2 : e.2 ≠ rev := by simpa using hcond
            obtain ⟨hp, hd⟩ := hcons1 e hel
            constructor
            · simp only
              rw [List.mem_filter]
              refine ⟨hp, ?_⟩
              simp only [Bool.not_eq_true', beq_eq_false_iff_ne, ne_eq]
              exact hnopar e hel
            · simp only
              rw [List.mem_filter]
              refine ⟨hd, ?_⟩
              simp only [Bool.not_eq_true', beq_eq_false_iff_ne, ne_eq]
              exact hne2
          obtain ⟨hcons3, htr2⟩ := ih _ _ _ hcons2 h2
          refine ⟨hcons3, ?_⟩
          intro l' hl'
          simp only at hl'
          rw [List.append_assoc, List.mem_append] at hl'
          rcases hl' with hl' | hl'
          · exact htr1 l' hl'
          · rw [List.mem_append] at hl'
            rcases hl' with hl' | hl'
            · rw [List.mem_singleton.mp hl']
              exact hcons2
            · exact htr2 l' hl'

end Migrate

namespace Migrate

/-- Termination of cascading rollback under an acyclic recorded edge relation,
witnessed by a rank that strictly drops from parent to dependent: enough fuel
makes `remove_list` return a result.  `l0` is an ambient ledger whose edge
rows bound every ledger reached during the recursion. -/
theorem rb_total (rank : Rev → Nat) (l0 : Ledger)
    (hrk : ∀ e ∈ l0.edges, rank e.2 < rank e.1) :
    ∀ (fuel : Nat) (ρ : Nat) (ts : List Rev) (l : Ledger),
    l.edges.Sublist l0.edges →
    (∀ t ∈ ts, rank t ≤ ρ) →
    (ρ + 1) * (l0.edges.length + 2) + ts.length ≤ fuel →
    (remove_list fuel ts l).isSome := by
  intro fuel
  induction fuel with
  | zero =>
    intro ρ ts l hsub hts hbound
    have hge : 1 * 2 ≤ (ρ + 1) * (l0.edges.length + 2) :=
      Nat.mul_le_mul (by omega) (by omega)
    omega
  | succ fuel ih =>
    intro ρ ts l hsub hts hbound
    cases ts with
    | nil =>
      rw [remove_list_nil]
      rfl
    | cons rev rest =>
      have hE : (dependentsOf l rev).length ≤ l0.edges.length := by
        have h1 : (l.edges.filter (fun e => e.1 == rev)).length ≤ l.edges.length :=
          (List.filter_sublist _).length_le
        have h2 : l.edges.length ≤ l0.edges.length := hsub.length_le
        unfold dependentsOf
        rw [List.length_map]
        omega
      have hdsrank : ∀ d ∈ dependentsOf l rev, rank d < rank rev := by
        intro d hd
        obtain ⟨e, he, hed⟩ := List.mem_map.mp hd
        obtain ⟨hel, hcond⟩ := List.mem_filter.mp he
        have he1 : e.1 = rev := by simpa using hcond
        rw [← hed, ← he1]
        exact hrk e (hsub.subset hel)
      have hrevle : rank rev ≤ ρ := hts rev (List.mem_cons_self _ _)
      -- the dependents pass succeeds
      have hds : (remove_list fuel (dependentsOf l rev) l).isSome := by
        cases ρ with
        | zero =>
          have hempty : dependentsOf l rev = [] := by
            rw [List.eq_nil_iff_forall_not_mem]
            intro d hd
            have := hdsrank d hd
            omega
          rw [hempty, remove_list_nil]
          rfl
        | succ ρ =>
          by_cases hzero : rank rev = 0
          · have hempty : dependentsOf l rev = [] := by
              rw [List.eq_nil_iff_forall_not_mem]
              intro d hd
              have := hdsrank d hd
              omega
            rw [hempty, remove_list_nil]
            rfl
          · refine ih ρ (dependentsOf l rev) l hsub ?_ ?_
            · intro d hd
              have := hdsrank d hd
              omega
            · have hmul : (ρ + 1 + 1) * (l0.edges.length + 2)
                  = (ρ + 1) * (l0.edges.length + 2) + (l0.edges.length + 2) := by
                ring
              rw [hmul] at hbound
              simp only [List.length_cons] at hbound
              omega
      rcases hr1 : remove_list fuel (dependentsOf l rev) l with - | r1
      · rw [hr1] at hds
        exact absurd hds (by simp)
      · have hsub2 : (⟨r1.ledger.applied.filter (fun a => !(a == rev)),
            r1.ledger.edges.filter (fun e => !(e.2 == rev))⟩ : Ledger).edges.Sublist
            l0.edges := by
          simp only
          exact ((List.filter_sublist _).trans (remove_list_sublist _ _ _ _ hr1).2).trans hsub
        have hrest : (remove_list fuel rest
            ⟨r1.ledger.applied.filter (fun a => !(a == rev)),
             r1.ledger.edges.filter (fun e => !(e.2 == rev))⟩).isSome := by
          refine ih ρ rest _ hsub2 ?_ ?_
          · intro t ht
            exact hts t (List.mem_cons_of_mem _ ht)
          · simp only [List.length_cons] at hbound
            omega
        rcases hr2 : remove_list fuel rest
            ⟨r1.ledger.applied.filter (fun a => !(a == rev)),
             r1.ledger.edges.filter (fun e => !(e.2 == rev))⟩ with - | r2
        · rw [hr2] at hrest
          exact absurd hrest (by simp)
        · rw [remove_list_succ_cons, hr1]
          simp only [hr2]
          rfl

/-- On the mutually-cyclic recorded edges `(A,B), (B,A)` the depth-first
dependent recursion of `remove_migration` never reaches a leaf: no amount of
fuel produces a result (the Python original recurses forever). -/
theorem remove_cyclic_none : ∀ fuel : Nat,
    remove_list fuel ["A"] ⟨["A", "B"], [("A", "B"), ("B", "A")]⟩ = none ∧
    remove_list fuel ["B"] ⟨["A", "B"], [("A", "B"), ("B", "A")]⟩ = none := by
  intro fuel
  induction fuel with
  | zero => exact ⟨rfl, rfl⟩
  | succ fuel ih =>
    constructor
    · rw [remove_list_succ_cons]
      have hd : dependentsOf ⟨["A", "B"], [("A", "B"), ("B", "A")]⟩ "A" = ["B"] := by
        decide
      rw [hd, ih.2]
    · rw [remove_list_succ_cons]
      have hd : dependentsOf ⟨["A", "B"], [("A", "B"), ("B", "A")]⟩ "B" = ["A"] := by
        decide
      rw [hd, ih.1]

end Migrate

namespace Migrate

/-- Claim C9: the depth-first dependent recursion of `remove_migration` is
well-founded exactly under acyclicity of the recorded dependency-edge
relation.  First part: when the edges admit a rank strictly decreasing from
parent to dependent (the topological-numbering form of acyclicity), enough
fuel always yields a result, so the recursion terminates.  Second part:
without that precondition the recursion does not terminate — on the cyclic
edge pair `(A,B), (B,A)` no amount of fuel produces a result. -/
theorem rollback_termination :
    (∀ (rank : Rev → Nat) (l : Ledger) (rev : Rev) (fuel : Nat),
      (∀ e ∈ l.edges, rank e.2 < rank e.1) →
      (rank rev + 1) * (l.edges.length + 2) + 1 ≤ fuel →
      (remove_migration fuel rev l).isSome) ∧
    (∀ fuel : Nat,
      remove_migration fuel "A" ⟨["A", "B"], [("A", "B"), ("B", "A")]⟩ = none) := by
  constructor
  · intro rank l rev fuel hrk hfuel
    unfold remove_migration
    refine rb_total rank l hrk fuel (rank rev) [rev] l (List.Sublist.refl _) ?_ ?_
    · intro t ht
      rw [List.mem_singleton.mp ht]
    · simpa using hfuel
  · intro fuel
    unfold remove_migration
    exact (remove_cyclic_none fuel).1

/-- Witness for `rollback_termination`: on the acyclic single edge `(A,B)`
with an explicit rank, fuel `13` suffices and the rollback returns a
result. -/
theorem rollback_termination_witness :
    (∀ e ∈ ([("A", "B")] : List (Rev × Rev)),
      (fun r => if r = "A" then 1 else 0) e.2 < (fun r => if r = "A" then 1 else 0) e.1) ∧
    ((fun r => if r = "A" then 1 else 0) "A" + 1) * ((([("A", "B")] : List (Rev × Rev))).length + 2) + 1 ≤ 13 ∧
    (remove_migration 13 "A" ⟨["A", "B"], [("A", "B")]⟩).isSome :=
  ⟨by decide, by decide,
   rollback_termination.1 (fun r => if r = "A" then 1 else 0)
     ⟨["A", "B"], [("A", "B")]⟩ "A" 13 (by decide) (by decide)⟩

/-- Claim C5: after a successful `remove_migration` of target `X` on a
consistent ledger, no `dependent_revision` row has `X` as parent or
dependent and no `revision` row for `X` remains; moreover every intermediate
ledger state committed along the way is consistent — at no point does an edge
point at an already-removed revision, and no revision is removed while an
edge still depends on it. -/
theorem rollback_clears_target (fuel : Nat) (X : Rev) (l : Ledger)
    (res : RbResult)
    (hcons : Consistent l)
    (hrun : remove_migration fuel X l = some res) :
    X ∉ res.ledger.applied ∧
    (∀ e ∈ res.ledger.edges, e.1 ≠ X ∧ e.2 ≠ X) ∧
    Consistent res.ledger ∧
    (∀ l' ∈ res.trace, Consistent l') := by
  unfold remove_migration at hrun
  obtain ⟨rA', rE', ha, he, -, -, hts, hcl⟩ :=
    rb_shape [] [] (by simp) fuel [X] l l.applied l.edges res
      (by simp) (by simp) (by simp) (by simp) hrun
  obtain ⟨hconsF, htrace⟩ := rb_trace fuel [X] l res hcons hrun
  refine ⟨?_, ?_, hconsF, htrace⟩
  · rw [ha, List.nil_append]
    exact hts X (List.mem_singleton_self X)
  · intro e hee
    have he' : e ∈ rE' := by
      rw [he, List.nil_append] at hee
      exact hee
    exact hcl X (List.mem_singleton_self X) e he'

/-- Witness for `rollback_clears_target`: rolling back A on the ledger
`{applied: A,B; edges: (A,B)}` cascades through B, empties the ledger, and
every committed intermediate state is consistent. -/
theorem rollback_clears_target_witness :
    Consistent ⟨["A", "B"], [("A", "B")]⟩ ∧
    remove_migration 5 "A" ⟨["A", "B"], [("A", "B")]⟩
      = some ⟨⟨[], []⟩, ["B", "A"], [⟨["A"], []⟩, ⟨[], []⟩]⟩ ∧
    ("A" ∉ (⟨[], []⟩ : Ledger).applied ∧
     (∀ e ∈ (⟨[], []⟩ : Ledger).edges, e.1 ≠ "A" ∧ e.2 ≠ "A") ∧
     Consistent (⟨[], []⟩ : Ledger) ∧
     (∀ l' ∈ [(⟨["A"], []⟩ : Ledger), ⟨[], []⟩], Consistent l')) :=
  ⟨by decide, by decide,
   rollback_clears_target 5 "A" ⟨["A", "B"], [("A", "B")]⟩
     ⟨⟨[], []⟩, ["B", "A"], [⟨["A"], []⟩, ⟨[], []⟩]⟩ (by decide) (by decide)⟩

/-! ## Rollback of a target that was never applied -/

/-- Counterexample to claim C6 as stated: rolling back the never-applied
revision X on an empty ledger is not a no-op and raises no
IdempotentRollbackError (no such error exists in the code): `remove_migration`
opens `down/X.sql` and executes the reverse script unconditionally — the
result records X's reverse script as executed (`undone = [X]`) even though X
was never applied.  Only the ledger rows are untouched. -/
theorem rollback_missing_target_runs_script :
    "X" ∉ (⟨[], []⟩ : Ledger).applied ∧
    remove_migration 1 "X" ⟨[], []⟩ = some ⟨⟨[], []⟩, ["X"], [⟨[], []⟩]⟩ := by
  exact ⟨by decide, by decide⟩

/-- Claim C6 (amended): rolling back a target absent from the applied set of a
consistent ledger leaves the ledger rows exactly unchanged (the dependent
query finds nothing and both deletes match nothing) and raises no error, so
the dependency edges are not corrupted — but the target's reverse script is
executed once, unconditionally. -/
theorem rollback_missing_target_noop_ledger (fuel : Nat) (X : Rev) (l : Ledger)
    (hcons : Consistent l)
    (hX : X ∉ l.applied)
    (hfuel : 1 ≤ fuel) :
    remove_migration fuel X l = some ⟨l, [X], [l]⟩ := by
  obtain ⟨fuel, rfl⟩ : ∃ f, fuel = f + 1 := ⟨fuel - 1, by omega⟩
  have hdeps : dependentsOf l X = [] := by
    unfold dependentsOf
    rw [List.filter_eq_nil_iff.mpr, List.map_nil]
    intro e he
    have := (hcons e he).1
    simp only [beq_iff_eq]
    intro hEq
    exact hX (hEq ▸ this)
  have h2a : l.applied.filter (fun a => !(a == X)) = l.applied := by
    rw [List.filter_eq_self]
    intro a ha
    simp only [Bool.not_eq_true', beq_eq_false_iff_ne, ne_eq]
    intro hEq
    exact hX (hEq ▸ ha)
  have h2e : l.edges.filter (fun e => !(e.2 == X)) = l.edges := by
    rw [List.filter_eq_self]
    intro e he
    simp only [Bool.not_eq_true', beq_eq_false_iff_ne, ne_eq]
    intro hEq
    exact hX (hEq ▸ (hcons e he).2)
  unfold remove_migration
  rw [remove_list_succ_cons, hdeps, remove_list_nil]
  simp only [h2a, h2e, remove_list_nil]
  rfl

/-- Witness for `rollback_missing_target_noop_ledger`: target X absent from
the consistent ledger `{applied: A; edges: none}`. -/
theorem rollback_missing_target_noop_ledger_witness :
    Consistent ⟨["A"], []⟩ ∧ "X" ∉ (⟨["A"], []⟩ : Ledger).applied ∧ 1 ≤ 3 ∧
    remove_migration 3 "X" ⟨["A"], []⟩
      = some ⟨⟨["A"], []⟩, ["X"], [⟨["A"], []⟩]⟩ :=
  ⟨by decide, by decide, by decide,
   rollback_missing_target_noop_ledger 3 "X" ⟨["A"], []⟩
     (by decide) (by decide) (by decide)⟩

end Migrate

namespace Migrate

theorem rollback_all_cons (fuel : Nat) (t : Rev) (rest : List Rev) (l : Ledger) :
    rollback_all fuel (t :: rest) l =
      match remove_migration fuel t l with
      | none => none
      | some res => rollback_all fuel rest res.ledger := rfl

/-- Folding `remove_migration` over any list of targets that covers exactly
the removable rows restores the ledger to the protected rows `A0`, `E0`:
every target call succeeds (given a rank making the edges acyclic and enough
fuel), never touches the old rows, and by the end every removable row has
been deleted by the call that targeted it (or a cascade before it). -/
theorem rollback_all_restores (A0 : List Rev) (E0 : List (Rev × Rev))
    (rank : Rev → Nat) (Ebound : Nat)
    (hE0 : ∀ e ∈ E0, e.1 ∈ A0 ∧ e.2 ∈ A0) :
    ∀ (order : List Rev) (rA : List Rev) (rE : List (Rev × Rev)) (fuel : Nat),
    (∀ x ∈ rA, x ∈ order) →
    (∀ e ∈ rE, e.2 ∈ order) →
    (∀ t ∈ order, t ∉ A0) →
    (∀ e ∈ rE, e.2 ∉ A0) →
    (∀ e ∈ E0 ++ rE, rank e.2 < rank e.1) →
    (E0 ++ rE).length ≤ Ebound →
    (∀ t ∈ order, (rank t + 1) * (Ebound + 2) + 1 ≤ fuel) →
    rollback_all fuel order ⟨A0 ++ rA, E0 ++ rE⟩ = some ⟨A0, E0⟩ := by
  intro order
  induction order with
  | nil =>
    intro rA rE fuel hA hE hord hEA hrk hlen hfuel
    have hrA : rA = [] :=
      List.eq_nil_iff_forall_not_mem.mpr
        (fun x hx => absurd (hA x hx) (List.not_mem_nil x))
    have hrE : rE = [] :=
      List.eq_nil_iff_forall_not_mem.mpr
        (fun e he_ => absurd (hE e he_) (List.not_mem_nil e.2))
    subst hrA
    subst hrE
    simp [rollback_all]
  | cons t rest ih =>
    intro rA rE fuel hA hE hord hEA hrk hlen hfuel
    have hsome : (remove_migration fuel t ⟨A0 ++ rA, E0 ++ rE⟩).isSome := by
      unfold remove_migration
      refine rb_total rank ⟨A0 ++ rA, E0 ++ rE⟩ hrk fuel (rank t) [t] _
        (List.Sublist.refl _) ?_ ?_
      · intro x hx
        rw [List.mem_singleton.mp hx]
      · have hb := hfuel t (List.mem_cons_self _ _)
        have hmono : (rank t + 1) * ((E0 ++ rE).length + 2)
            ≤ (rank t + 1) * (Ebound + 2) :=
          Nat.mul_le_mul_left _ (by omega)
        simp only [List.length_singleton]
        omega
    rcases hres : remove_migration fuel t ⟨A0 ++ rA, E0 ++ rE⟩ with - | res
    · rw [hres] at hsome
      exact absurd hsome (by simp)
    · obtain ⟨rA', rE', ha, he, sA, sE, hts, hcl⟩ :=
        rb_shape A0 E0 hE0 fuel [t] ⟨A0 ++ rA, E0 ++ rE⟩ rA rE res rfl rfl
          (by intro x hx
              rw [List.mem_singleton.mp hx]
              exact hord t (List.mem_cons_self _ _))
          hEA hres
      rw [rollback_all_cons, hres]
      have hres_ledger : res.ledger = ⟨A0 ++ rA', E0 ++ rE'⟩ := by
        have heta : res.ledger = ⟨res.ledger.applied, res.ledger.edges⟩ := rfl
        rw [heta, ha, he]
      show rollback_all fuel rest res.ledger = some ⟨A0, E0⟩
      rw [hres_ledger]
      refine ih rA' rE' fuel ?_ ?_ ?_ ?_ ?_ ?_ ?_
      · intro x hx
        have hxrA : x ∈ rA := sA.subset hx
        have hxts : x ∈ t :: rest := hA x hxrA
        rcases List.mem_cons.mp hxts with rfl | h
        · exact absurd hx (hts x (List.mem_singleton_self x))
        · exact h
      · intro e he_
        have herE : e ∈ rE := sE.subset he_
        have he2 : e.2 ∈ t :: rest := hE e herE
        rcases List.mem_cons.mp he2 with heq | h
        · exact absurd heq (hcl t (List.mem_singleton_self t) e he_).2
        · exact h
      · exact fun x hx => hord x (List.mem_cons_of_mem _ hx)
      · exact fun e he_ => hEA e (sE.subset he_)
      · intro e he_
        rw [List.mem_append] at he_
        rcases he_ with h | h
        · exact hrk e (List.mem_append.mpr (Or.inl h))
        · exact hrk e (List.mem_append.mpr (Or.inr (sE.subset h)))
      · rw [List.length_append] at hlen ⊢
        have := sE.length_le
        omega
      · exact fun x hx => hfuel x (List.mem_cons_of_mem _ hx)

end Migrate

namespace Migrate

/-- Claim C4: the apply / full-rollback round trip.  Starting from a
consistent ledger (the store's foreign keys guarantee consistency), run
`apply_migrations`, then run `remove_migration` once for every migration that
run applied, in any order covering exactly those migrations (cascades may
remove some early; later calls then find nothing to delete).  The ledger —
`revision` rows and `dependent_revision` rows — is restored to exactly its
pre-apply state.  The rank witnesses acyclicity of the recorded edges and the
fuel bounds the recursion depth of each call. -/
theorem apply_rollback_roundtrip (l0 : Ledger) (catalog : List (Rev × List String))
    (order : List Rev) (rank : Rev → Nat) (fuel : Nat)
    (hcat : (catalog.map (·.1)).Nodup)
    (hcons : Consistent l0)
    (hcover : ∀ r ∈ (apply_migrations l0 catalog).executed, r ∈ order)
    (honly : ∀ r ∈ order, r ∈ (apply_migrations l0 catalog).executed)
    (hrk : ∀ e ∈ (apply_migrations l0 catalog).ledger.edges, rank e.2 < rank e.1)
    (hfuel : ∀ t ∈ order,
      (rank t + 1) * ((apply_migrations l0 catalog).ledger.edges.length + 2) + 1
        ≤ fuel) :
    rollback_all fuel order (apply_migrations l0 catalog).ledger = some l0 := by
  by_cases hpe : (pendingOf l0 catalog).isEmpty = true
  · have hout : apply_migrations l0 catalog = ⟨.ok, l0, [], []⟩ := by
      unfold apply_migrations apply_migrationsF
      rw [if_pos hpe]
    rw [hout] at honly ⊢
    have horder : order = [] :=
      List.eq_nil_iff_forall_not_mem.mpr
        (fun x hx => absurd (honly x hx) (List.not_mem_nil x))
    subst horder
    rfl
  · by_cases hfe : (frontierOf (predsMapOf l0 catalog)).isEmpty = true
    · have hout : apply_migrations l0 catalog = ⟨.graphError, l0, [], []⟩ := by
        unfold apply_migrations apply_migrationsF
        rw [if_neg hpe, if_pos hfe]
      rw [hout] at honly ⊢
      have horder : order = [] :=
        List.eq_nil_iff_forall_not_mem.mpr
          (fun x hx => absurd (honly x hx) (List.not_mem_nil x))
      subst horder
      rfl
    · obtain ⟨stf, hInvF, -, hled, hexe⟩ :=
        apply_migrations_final l0 catalog hcat hpe hfe
      rw [hled] at hrk hfuel ⊢
      rw [hexe] at hcover honly
      have hpend : ∀ r ∈ stf.executed, r ∉ l0.applied := by
        intro r hr
        have := hInvF.done_mem r hr
        rw [predsMapOf_keys] at this
        exact (mem_pending_keys.mp this).2
      have hnewE : ∀ e ∈ stf.executed.flatMap
          (fun r => ((lookupPreds (predsMapOf l0 catalog) r).allPreds).map
            (fun p => (p, r))), e.2 ∈ stf.executed := by
        intro e he
        obtain ⟨r, hr, hmem⟩ := List.mem_flatMap.mp he
        obtain ⟨p, -, hpe'⟩ := List.mem_map.mp hmem
        rw [← hpe']
        exact hr
      have hledger : stf.ledger = ⟨l0.applied ++ stf.executed,
          l0.edges ++ stf.executed.flatMap
            (fun r => ((lookupPreds (predsMapOf l0 catalog) r).allPreds).map
              (fun p => (p, r)))⟩ := by
        have heta : stf.ledger = ⟨stf.ledger.applied, stf.ledger.edges⟩ := rfl
        rw [heta, hInvF.ledger_applied, hInvF.ledger_edges]
      rw [hledger] at hrk hfuel ⊢
      have hfinal := rollback_all_restores l0.applied l0.edges rank
        (l0.edges ++ stf.executed.flatMap
          (fun r => ((lookupPreds (predsMapOf l0 catalog) r).allPreds).map
            (fun p => (p, r)))).length
        (fun e he => hcons e he) order stf.executed
        (stf.executed.flatMap
          (fun r => ((lookupPreds (predsMapOf l0 catalog) r).allPreds).map
            (fun p => (p, r)))) fuel
        hcover
        (fun e he => hcover e.2 (hnewE e he))
        (fun t ht => hpend t (honly t ht))
        (fun e he => hpend e.2 (hnewE e he))
        hrk
        (Nat.le_refl _)
        hfuel
      rw [hfinal]

end Migrate

namespace Migrate

/-- Witness for `apply_rollback_roundtrip`: the spec's Scenario 1 catalog
applied to an empty ledger, then every applied migration rolled back (order
A, B, C, D — rolling back A cascades through the rest, the remaining calls
find nothing to delete).  The ledger returns to its pre-apply state. -/
theorem apply_rollback_roundtrip_witness :
    ((([("A", ["CREATE TABLE a;"]), ("B", ["-- # A"]), ("C", ["-- # A"]),
        ("D", ["-- # B", "-- # C"])] : List (Rev × List String)).map (·.1)).Nodup ∧
     Consistent ⟨[], []⟩ ∧
     (∀ r ∈ (apply_migrations ⟨[], []⟩
        [("A", ["CREATE TABLE a;"]), ("B", ["-- # A"]), ("C", ["-- # A"]),
         ("D", ["-- # B", "-- # C"])]).executed, r ∈ ["A", "B", "C", "D"]) ∧
     (∀ r ∈ ["A", "B", "C", "D"], r ∈ (apply_migrations ⟨[], []⟩
        [("A", ["CREATE TABLE a;"]), ("B", ["-- # A"]), ("C", ["-- # A"]),
         ("D", ["-- # B", "-- # C"])]).executed)) ∧
    rollback_all 25 ["A", "B", "C", "D"]
      (apply_migrations ⟨[], []⟩
        [("A", ["CREATE TABLE a;"]), ("B", ["-- # A"]), ("C", ["-- # A"]),
         ("D", ["-- # B", "-- # C"])]).ledger = some ⟨[], []⟩ :=
  ⟨⟨by decide, by decide, by decide, by decide⟩,
   apply_rollback_roundtrip ⟨[], []⟩
     [("A", ["CREATE TABLE a;"]), ("B", ["-- # A"]), ("C", ["-- # A"]),
      ("D", ["-- # B", "-- # C"])]
     ["A", "B", "C", "D"]
     (fun r => if r = "A" then 3 else if r = "D" then 1 else 2) 25
     (by decide) (by decide) (by decide) (by decide) (by decide) (by decide)⟩

end Migrate

namespace Migrate

/-! ## Catalog construction and duplicate identifiers -/

/-- Counterexample to claim C8 as stated: `up/foo.sql` and `up/foo.sql.sql`
are two distinct files, both matched by the `*.sql` glob, and the identifier
derivation of line 143 maps both to `foo` because Python's `replace` removes
every occurrence of `'.sql'`, not only a suffix.  Catalog loading raises
nothing — no duplicate check exists — and silently builds the dict with the
later file shadowing the earlier one. -/
theorem catalog_duplicate_identifier_shadowing :
    ("up/foo.sql" : String) ≠ "up/foo.sql.sql" ∧
    revisionOfFilename "up/" "up/foo.sql" = "foo" ∧
    revisionOfFilename "up/" "up/foo.sql.sql" = "foo" ∧
    revision_to_file "up/" ["up/foo.sql", "up/foo.sql.sql"]
      = [("foo", "up/foo.sql.sql")] := by
  exact ⟨by decide, by decide, by decide, by decide⟩

theorem dictInsert_find? (k : Rev) (v : String) (d : List (Rev × String)) (r : Rev) :
    (dictInsert k v d).find? (fun e => e.1 == r)
      = if r = k then some (k, v) else d.find? (fun e => e.1 == r) := by
  induction d with
  | nil =>
    by_cases h : r = k
    · subst h
      simp [dictInsert]
    · rw [if_neg h]
      unfold dictInsert
      rw [List.find?_cons_of_neg _ (by simp [Ne.symm h])]
  | cons a rest ih =>
    obtain ⟨k', v'⟩ := a
    by_cases hk : k' = k
    · subst hk
      have hstep : dictInsert k' v ((k', v') :: rest) = (k', v) :: rest := by
        show (if (k' == k') = true then (k', v) :: rest
              else (k', v') :: dictInsert k' v rest) = (k', v) :: rest
        rw [if_pos (by simp)]
      rw [hstep]
      by_cases hr : r = k'
      · subst hr
        rw [List.find?_cons_of_pos _ (by simp), if_pos rfl]
      · rw [if_neg hr]
        rw [List.find?_cons_of_neg _ (by simp [Ne.symm hr]),
          List.find?_cons_of_neg _ (by simp [Ne.symm hr])]
    · have hstep : dictInsert k v ((k', v') :: rest)
          = (k', v') :: dictInsert k v rest := by
        show (if (k' == k) = true then (k, v) :: rest
              else (k', v') :: dictInsert k v rest) = (k', v') :: dictInsert k v rest
        rw [if_neg (by simp [hk])]
      rw [hstep]
      by_cases hr : k' = r
      · subst hr
        have hrk : ¬k' = k := hk
        rw [if_neg hrk]
        rw [List.find?_cons_of_pos _ (by simp), List.find?_cons_of_pos _ (by simp)]
      · rw [List.find?_cons_of_neg _ (by simp [hr]),
          List.find?_cons_of_neg _ (by simp [hr])]
        exact ih

theorem revision_to_file_append (dir : String) (files : List String) (fn : String) :
    revision_to_file dir (files ++ [fn])
      = dictInsert (revisionOfFilename dir fn) fn (revision_to_file dir files) := by
  unfold revision_to_file
  rw [List.foldl_append]
  rfl

/-- Claim C8 (amended): catalog loading detects no duplicates.  The dict maps
each identifier to the *last* discovered file deriving that identifier:
looking an identifier up in `revision_to_file` returns exactly the last file
(in discovery order) whose derived identifier matches, so when two files
share an identifier the later one silently shadows the earlier. -/
theorem catalog_last_file_wins (dir : String) (files : List String) (r : Rev) :
    (revision_to_file dir files).find? (fun e => e.1 == r)
      = (files.reverse.find? (fun fn => revisionOfFilename dir fn == r)).map
          (fun fn => (r, fn)) := by
  induction files using List.reverseRecOn with
  | nil => rfl
  | append_singleton files fn ih =>
    rw [revision_to_file_append, dictInsert_find?, List.reverse_append]
    simp only [List.reverse_singleton, List.singleton_append]
    by_cases h : revisionOfFilename dir fn = r
    · rw [if_pos h.symm, List.find?_cons_of_pos _ (by simp [h])]
      simp [h]
    · rw [if_neg (fun hh => h hh.symm), List.find?_cons_of_neg _ (by simp [h])]
      exact ih

end Migrate

namespace Migrate

/-- Witness for `apply_only_graph_error`: the ledger records the applied
revision Z with no catalog entry; the run proceeds without any error. -/
theorem apply_only_graph_error_witness :
    ("Z" ∈ (⟨["Z"], []⟩ : Ledger).applied ∧
     "Z" ∉ ([("A", [])] : List (Rev × List String)).map (·.1)) ∧
    (((apply_migrations ⟨["Z"], []⟩ [("A", [])]).status = RunStatus.graphError ↔
       (pendingOf ⟨["Z"], []⟩ [("A", [])] ≠ [] ∧
        frontierOf (predsMapOf ⟨["Z"], []⟩ [("A", [])]) = [])) ∧
     (apply_migrations ⟨["Z"], []⟩ [("A", [])]).status ≠ RunStatus.scriptError) :=
  ⟨⟨by decide, by decide⟩,
   apply_only_graph_error ⟨["Z"], []⟩ [("A", [])] "Z" (by decide) (by decide)⟩

end Migrate
